import Mathlib

/-!
Verification of the virtualized multiplexed log viewport of `src/app.rs`
(`mod scroll_state` and the ingestion loop in `App::update`).

Shallow embedding conventions:
* `SystemTime` timestamps are modelled as `Nat` (the engine only compares them).
* Log entries are reduced to their timestamps: the engine reads only `log.0`
  (the time) and the lengths of the per-runner logs, never the text or channel.
* `f32` pixel quantities (offsets, bounds, line height) are modelled as `ℚ`;
  the code only floors/ceils their quotients by the line height and compares
  them against `2.1 * line_height`.
* Rust `usize` subtraction appears only where the source never underflows on
  the paths the theorems cover; it is modelled by truncated `Nat` subtraction.
* Vector indexing `v[i]` is modelled by `List.getD`; the theorems carry the
  well-formedness hypotheses (`runner_idxs` in range, cursor/len agreement)
  under which the defaults are never consulted.
* The two `while` loops of `update_logs` are modelled with an explicit fuel
  parameter.  `recomputeCore` invokes them with fuel that provably makes the
  fueled loop agree with the unbounded loop: the rewind loop decrements its
  running total at every step (fuel = the initial total), and the fill loop
  increments the running total every step while pushing an entry whenever the
  total is at or past the skip target, so it performs at most
  `target + nVisible` iterations (see `fillLoop_fuel`).
-/

namespace Battlestation

/-- Per-runner logs: `logs[runner_id][log_item]`, each entry reduced to its
timestamp. -/
abbrev RunnerLogs := List (List Nat)

/-- `runner_logs[j]` with out-of-range default `[]`. -/
def logOf (L : RunnerLogs) (j : Nat) : List Nat := L.getD j []

/-- `runner_logs[j].len()`. -/
def logLen (L : RunnerLogs) (j : Nat) : Nat := (logOf L j).length

/-- Timestamp of `runner_logs[j][p]` (out-of-range default `0`). -/
def logTime (L : RunnerLogs) (j p : Nat) : Nat := (logOf L j).getD p 0

/-- `ScrollState::line_height()`: the iced default line height
(`LineHeight::default()` = 1.3 relative, default text size 16 px), a fixed
positive constant `20.8` px. -/
def lineHeight : ℚ := 104 / 5

/-- `widget::scrollable::AbsoluteOffset`. -/
structure AbsoluteOffset where
  x : ℚ
  y : ℚ
deriving DecidableEq

/-- The stored `scroll_state::Viewport`: of `bounds` only the height is ever
read (`viewport.bounds.height`), so only it is modelled. -/
structure Viewport where
  offset_top : AbsoluteOffset
  offset_bottom : AbsoluteOffset
  bounds_height : ℚ
deriving DecidableEq

/-- `widget::scrollable::Anchor`. -/
inductive Anchor where
  | Start
  | End
deriving DecidableEq

/-- `scroll_state::ScrollStateLog`. -/
structure ScrollStateLog where
  runner_idx : Nat
  log_pos : Nat
deriving DecidableEq

/-- `scroll_state::ScrollState` (the widget id carries no semantics and is
omitted). -/
structure ScrollState where
  space_before : ℚ
  space_after : ℚ
  anchor_y : Anchor
  logs : List ScrollStateLog
  viewport : Option Viewport
  runner_idxs : List Nat
  cursors : List Nat
  enable_updates : Bool
deriving DecidableEq

/-- The data read from the `widget::scrollable::Viewport` delivered with an
`OnScroll` message: `absolute_offset()`, `absolute_offset_reversed()` and
`bounds()` (height only). -/
structure ScrollEvent where
  absolute_offset : AbsoluteOffset
  absolute_offset_reversed : AbsoluteOffset
  bounds_height : ℚ
deriving DecidableEq

/-- `scroll_state::Message`. -/
inductive Message where
  | OnScroll (ev : ScrollEvent)
  | UpdateLogs
  | SetEnableUpdates (v : Bool)
deriving DecidableEq

/-- The effects an operation emits, in order: `scroll_to` commands to the host
and messages fed back to the engine via `Task::done`. -/
inductive Command where
  | scrollTo (offset : AbsoluteOffset)
  | done (m : Message)
deriving DecidableEq

/-- `(px / line_height).ceil()` as a count of lines
(`to_int_unchecked::<usize>`; negative values, undefined in the source, clamp
to 0). -/
def pxCeil (px : ℚ) : Nat := (⌈px / lineHeight⌉).toNat

/-- `(px / line_height).floor()` as a count of lines. -/
def pxFloor (px : ℚ) : Nat := (⌊px / lineHeight⌋).toNat

/-- The "Ensure numbers match with total_lines" block of `update_logs`:
trims first the anchored-side cut-off count, then the visible count, so that
`n_visible_lines + off` never exceeds `total_lines`.  Returns
`(n_visible_lines, off)`. -/
def reconcileClamp (total nVis0 off0 : Nat) : Nat × Nat :=
  if nVis0 + off0 > total then
    let diff := off0 + nVis0 - total
    if off0 ≥ diff then (nVis0, off0 - diff)
    else (nVis0 - (diff - off0), 0)
  else (nVis0, off0)

/-- One "We want about 10 lines above and below" block: move up to 10 lines
from the culled side `avail` into the visible count `vis`. -/
def prefetchMargin (vis avail : Nat) : Nat × Nat :=
  if avail ≥ 10 then (vis + 10, avail - 10) else (vis + avail, 0)

/-- The reconciliation and prefetch arithmetic of `update_logs`, shared
verbatim by the two anchor branches with `off` the anchored side
(`n_lines_after` under `End`, `n_lines_before` under `Start`) and `other` the
opposite side.  Returns `(n_visible_lines, off side, other side)`. -/
def reconcileAndPrefetch (total nVis0 off0 : Nat) : Nat × Nat × Nat :=
  let p1 := reconcileClamp total nVis0 off0
  let p2 := prefetchMargin p1.1 p1.2
  let other0 := total - p2.2 - p2.1
  let p3 := prefetchMargin p2.1 other0
  (p3.1, p2.2, p3.2)

/-- One `for i in ... { ... }` candidate-selection scan: `f i` is the
candidate timestamp offered by slot `i` (`none` when the slot is skipped) and
`repl t u` decides whether a new candidate `t` replaces the current best `u`. -/
def pickScan (f : Nat → Option Nat) (repl : Nat → Nat → Bool) :
    List Nat → Option (Nat × Nat) → Option (Nat × Nat)
  | [], acc => acc
  | i :: rest, acc =>
      pickScan f repl rest
        (match f i with
         | none => acc
         | some t =>
           match acc with
           | none => some (i, t)
           | some ju => if repl t ju.2 then some (i, t) else some ju)

/-- Scan `for i in (0..n).rev()`, replacing on `log.0 <= t`: the minimal
timestamp wins, ties go to the lowest slot. -/
def pickMinDesc (n : Nat) (f : Nat → Option Nat) : Option (Nat × Nat) :=
  pickScan f (fun t u => decide (t ≤ u)) (List.range n).reverse none

/-- Scan `for i in 0..n`, replacing on `log.0 > t`: the maximal timestamp
wins, ties go to the lowest slot. -/
def pickMaxAsc (n : Nat) (f : Nat → Option Nat) : Option (Nat × Nat) :=
  pickScan f (fun t u => decide (u < t)) (List.range n) none

/-- Candidate of slot `i` in the `End`-anchor rewind scan:
skip `cursors[i] == 0`, else the entry at `lens[i] - cursors[i]`. -/
def candRewindEnd (L : RunnerLogs) (ridxs lens c : List Nat) (i : Nat) :
    Option Nat :=
  if c.getD i 0 = 0 then none
  else some (logTime L (ridxs.getD i 0) (lens.getD i 0 - c.getD i 0))

/-- Candidate of slot `i` in the `End`-anchor fill scan:
skip `cursors[i] == lens[i]`, else the entry at `lens[i] - cursors[i] - 1`. -/
def candFillEnd (L : RunnerLogs) (ridxs lens c : List Nat) (i : Nat) :
    Option Nat :=
  if c.getD i 0 = lens.getD i 0 then none
  else some (logTime L (ridxs.getD i 0) (lens.getD i 0 - c.getD i 0 - 1))

/-- Candidate of slot `i` in the `Start`-anchor rewind scan:
skip `cursors[i] == 0`, else the entry at `cursors[i] - 1`. -/
def candRewindStart (L : RunnerLogs) (ridxs _lens c : List Nat) (i : Nat) :
    Option Nat :=
  if c.getD i 0 = 0 then none
  else some (logTime L (ridxs.getD i 0) (c.getD i 0 - 1))

/-- Candidate of slot `i` in the `Start`-anchor fill scan:
skip `cursors[i] == lens[i]`, else the entry at `cursors[i]`. -/
def candFillStart (L : RunnerLogs) (ridxs lens c : List Nat) (i : Nat) :
    Option Nat :=
  if c.getD i 0 = lens.getD i 0 then none
  else some (logTime L (ridxs.getD i 0) (c.getD i 0))

/-- `End`-anchor rewind pick: descending scan, replace on `log.0 <= t`. -/
def pickRewindEnd (L : RunnerLogs) (ridxs lens c : List Nat) :
    Option (Nat × Nat) :=
  pickMinDesc ridxs.length (candRewindEnd L ridxs lens c)

/-- `End`-anchor fill pick: ascending scan, replace on `log.0 > t`.  The
picked slot's position `lens[i] - cursors[i] - 1` is recovered from the slot,
exactly the value the loop computed for that slot. -/
def pickFillEnd (L : RunnerLogs) (ridxs lens c : List Nat) :
    Option (Nat × Nat × Nat) :=
  match pickMaxAsc ridxs.length (candFillEnd L ridxs lens c) with
  | some it => some (it.1, lens.getD it.1 0 - c.getD it.1 0 - 1, it.2)
  | none => none

/-- `Start`-anchor rewind pick: ascending scan, replace on `log.0 > t`. -/
def pickRewindStart (L : RunnerLogs) (ridxs lens c : List Nat) :
    Option (Nat × Nat) :=
  pickMaxAsc ridxs.length (candRewindStart L ridxs lens c)

/-- `Start`-anchor fill pick: descending scan, replace on `log.0 <= t`. -/
def pickFillStart (L : RunnerLogs) (ridxs lens c : List Nat) :
    Option (Nat × Nat × Nat) :=
  match pickMinDesc ridxs.length (candFillStart L ridxs lens c) with
  | some it => some (it.1, c.getD it.1 0, it.2)
  | none => none

/-- The cursor-rewind `while cursor_total > target` loop.  `ct` mirrors the
source's `cursor_total` variable (kept equal to `c.sum` by the callers).  The
loop decrements `ct` on every iteration, so fuel `ct` makes the fueled loop
agree with the unbounded one: when fuel runs out `ct = 0 ≤ target` and the
guard is false anyway. -/
def rewindLoop (pick : List Nat → Option (Nat × Nat)) :
    Nat → List Nat → Nat → Nat → List Nat
  | 0, c, _, _ => c
  | fuel + 1, c, ct, target =>
      if ct > target then
        match pick c with
        | some it => rewindLoop pick fuel (c.set it.1 (c.getD it.1 0 - 1)) (ct - 1) target
        | none => c
      else c

/-- The fill `while self.logs.len() < n_visible_lines` loop.  Accumulates
window picks as `(slot, log_pos)` pairs and the snapshot taken when
`cursor_total == target` (`none` when the snapshot never fired, in which case
the stored cursors are left untouched).  Every iteration increments `ct` and
pushes an entry once `ct ≥ target`, so at most `target + nVis` iterations run
(`fillLoop_fuel`); `recomputeCore` passes exactly that fuel. -/
def fillLoop (pick : List Nat → Option (Nat × Nat × Nat)) :
    Nat → List Nat → Nat → Nat → Nat → List (Nat × Nat) → Option (List Nat) →
    List (Nat × Nat) × Option (List Nat)
  | 0, _, _, _, _, acc, saved => (acc, saved)
  | fuel + 1, c, ct, target, nVis, acc, saved =>
      if acc.length < nVis then
        match pick c with
        | some ipt =>
            fillLoop pick fuel (c.set ipt.1 (c.getD ipt.1 0 + 1)) (ct + 1) target nVis
              (if ct ≥ target then acc ++ [(ipt.1, ipt.2.1)] else acc)
              (if ct = target then some c else saved)
        | none => (acc, saved)
      else (acc, saved)

/-- The outputs of one recompute. -/
structure Recomputed where
  window : List (Nat × Nat)
  nBefore : Nat
  nAfter : Nat
  cursors : List Nat
deriving DecidableEq

/-- The body of `ScrollState::update_logs` after the `enable_updates` guard:
geometry reconciliation, rewind and fill, producing the window (as
`(slot, log_pos)` pairs, in chronological order: the `End` branch assembles
newest-first and reverses), the padding line counts and the updated stored
cursors. -/
def recomputeCore (L : RunnerLogs) (anchor : Anchor) (vp : Option Viewport)
    (ridxs cs : List Nat) : Recomputed :=
  let lens := ridxs.map (logLen L)
  let total := lens.sum
  -- Number of lines visible in the viewport (rounded up); all lines when no
  -- viewport has been stored yet.
  let nVis0 : Nat :=
    match vp with
    | none => total
    | some v => pxCeil v.bounds_height
  match anchor with
  | Anchor.End =>
      let off0 : Nat :=
        match vp with
        | none => 0
        | some v => pxFloor v.offset_bottom.y
      let r := reconcileAndPrefetch total nVis0 off0
      let c1 := rewindLoop (pickRewindEnd L ridxs lens) cs.sum cs cs.sum r.2.1
      let fr := fillLoop (pickFillEnd L ridxs lens) (r.2.1 + r.1) c1 c1.sum r.2.1 r.1 [] none
      ⟨fr.1.reverse, r.2.2, r.2.1, fr.2.getD cs⟩
  | Anchor.Start =>
      let off0 : Nat :=
        match vp with
        | none => 0
        | some v => pxFloor v.offset_top.y
      let r := reconcileAndPrefetch total nVis0 off0
      let c1 := rewindLoop (pickRewindStart L ridxs lens) cs.sum cs cs.sum r.2.1
      let fr := fillLoop (pickFillStart L ridxs lens) (r.2.1 + r.1) c1 c1.sum r.2.1 r.1 [] none
      ⟨fr.1, r.2.1, r.2.2, fr.2.getD cs⟩

/-- `ScrollState::update_logs`.  Each window pick `(i, pos)` is stored as
`ScrollStateLog { runner_idx: self.runner_idxs[i], log_pos: pos }`; the
mapping is applied to the assembled list, element by element, exactly as the
loop applies it at each push. -/
def ScrollState.update_logs (st : ScrollState) (L : RunnerLogs) : ScrollState :=
  if st.enable_updates then
    let r := recomputeCore L st.anchor_y st.viewport st.runner_idxs st.cursors
    { st with
        logs := r.window.map (fun ip => ⟨st.runner_idxs.getD ip.1 0, ip.2⟩),
        space_before := (r.nBefore : ℚ) * lineHeight,
        space_after := (r.nAfter : ℚ) * lineHeight,
        cursors := r.cursors }
  else st

/-- `ScrollState::set_runner_idxs`: replace the active set, reset the frame,
and emit the disable-jump-enable-recompute chain (`enable_updates` is cleared
synchronously, before any emitted command runs). -/
def ScrollState.set_runner_idxs (st : ScrollState) (idxs : List Nat) :
    ScrollState × List Command :=
  ({ st with
      runner_idxs := idxs,
      anchor_y := Anchor.End,
      cursors := List.replicate idxs.length 0,
      viewport := none,
      enable_updates := false },
   [Command.scrollTo ⟨0, 0⟩, Command.done (Message.SetEnableUpdates true),
    Command.done Message.UpdateLogs])

/-- The anchor-flip cursor transform
`cursors[i] = runner_logs[runner_idxs[i]].len() - cursors[i]`. -/
def flipCursors (L : RunnerLogs) (ridxs c : List Nat) : List Nat :=
  (List.range c.length).map (fun i => logLen L (ridxs.getD i 0) - c.getD i 0)

/-- How `OnScroll` stores the reported offsets, reinterpreted per the current
anchor: under `Start` the reported `absolute_offset` is the offset from the
top; under `End` it is the offset from the bottom. -/
def storedViewport (ev : ScrollEvent) : Anchor → Viewport
  | Anchor.Start => ⟨ev.absolute_offset, ev.absolute_offset_reversed, ev.bounds_height⟩
  | Anchor.End => ⟨ev.absolute_offset_reversed, ev.absolute_offset, ev.bounds_height⟩

/-- `ScrollState::update`.  On `OnScroll`: the reentrancy guard, then the
viewport is stored reinterpreted per the current anchor, a recompute runs,
and the anchor-flip condition is evaluated against `2.1 * line_height`. -/
def ScrollState.update (st : ScrollState) (msg : Message) (L : RunnerLogs) :
    ScrollState × List Command :=
  match msg with
  | Message.UpdateLogs => (st.update_logs L, [])
  | Message.SetEnableUpdates v => ({ st with enable_updates := v }, [])
  | Message.OnScroll ev =>
      if st.enable_updates then
        let st1 := { st with viewport := some (storedViewport ev st.anchor_y) }
        let st2 := st1.update_logs L
        match st2.anchor_y with
        | Anchor.Start =>
            if ev.absolute_offset_reversed.y < 21 / 10 * lineHeight then
              ({ st2 with
                  anchor_y := Anchor.End,
                  cursors := flipCursors L st2.runner_idxs st2.cursors,
                  enable_updates := false },
               [Command.scrollTo ⟨0, 0⟩,
                Command.done (Message.SetEnableUpdates true),
                Command.done Message.UpdateLogs])
            else (st2, [])
        | Anchor.End =>
            if ev.absolute_offset.y > 21 / 10 * lineHeight then
              ({ st2 with
                  anchor_y := Anchor.Start,
                  cursors := flipCursors L st2.runner_idxs st2.cursors,
                  enable_updates := false },
               [Command.scrollTo ev.absolute_offset_reversed,
                Command.done (Message.SetEnableUpdates true),
                Command.done Message.UpdateLogs])
            else (st2, [])
      else (st, [])

/-! ### Ingestion (`App::update`, `Message::Stdout` / `Message::Stderr`)

The per-chunk line-splitting loop, on the text level: `buf` is the runner's
partial-line buffer, `s` the delivered chunk.  Returns the new buffer and the
completed lines appended to the log, in order.  (The stdout and stderr arms
are verbatim copies of each other; one function models both.) -/

/-- `s.find('\n')` followed by the split `(&s[..n], &s[n + 1..])`. -/
def breakAtNewline : List Char → Option (List Char × List Char)
  | [] => none
  | ch :: cs =>
      if ch = '\n' then some ([], cs)
      else
        match breakAtNewline cs with
        | none => none
        | some pq => some (ch :: pq.1, pq.2)

theorem breakAtNewline_shorter :
    ∀ s pq, breakAtNewline s = some pq → pq.2.length < s.length := by
  intro s
  induction s with
  | nil => intro pq h; simp [breakAtNewline] at h
  | cons ch cs ih =>
      intro pq h
      by_cases hc : ch = '\n'
      · simp [breakAtNewline, hc] at h
        cases h
        simp
      · simp only [breakAtNewline, if_neg hc] at h
        cases hb : breakAtNewline cs with
        | none => rw [hb] at h; cases h
        | some pq' =>
            rw [hb] at h
            cases h
            have := ih pq' hb
            simpa using Nat.lt_succ_of_lt this

/-- The `while !s.is_empty()` loop: on each `'\n'` found, push the buffer
plus the pre-newline text as one completed line and continue after the
newline with an empty buffer; with no `'\n'`, append the chunk to the buffer
and stop. -/
def ingest (buf : List Char) (s : List Char) : List Char × List (List Char) :=
  if s = [] then (buf, [])
  else
    match hb : breakAtNewline s with
    | some pq =>
        let r := ingest [] pq.2
        (r.1, (buf ++ pq.1) :: r.2)
    | none => (buf ++ s, [])
termination_by s.length
decreasing_by exact breakAtNewline_shorter s pq hb

/-! ### The spec's global order (for the global-order claim)

"All active entries sorted ascending by timestamp, ties broken by ascending
source id": realized as the enumeration of every `(slot, position)` reference
of the active set sorted by the key `(timestamp, slot, position)` — with the
active slots listed in ascending runner id (as `set_runner_idxs` produces
them), slot order is runner-id order, and the trailing position component
makes the order linear (for a per-source sorted log it coincides with the
stable order of the source). -/

/-- Every `(slot, position)` reference of the active set, slot-major. -/
def allRefs (L : RunnerLogs) (ridxs : List Nat) : List (Nat × Nat) :=
  (List.range ridxs.length).flatMap
    (fun i => (List.range (logLen L (ridxs.getD i 0))).map (fun p => (i, p)))

/-- Ascending by timestamp, ties by slot, then by position. -/
def refLE (L : RunnerLogs) (ridxs : List Nat) (a b : Nat × Nat) : Prop :=
  logTime L (ridxs.getD a.1 0) a.2 < logTime L (ridxs.getD b.1 0) b.2
    ∨ (logTime L (ridxs.getD a.1 0) a.2 = logTime L (ridxs.getD b.1 0) b.2
        ∧ (a.1 < b.1 ∨ (a.1 = b.1 ∧ a.2 ≤ b.2)))

instance (L : RunnerLogs) (ridxs : List Nat) : DecidableRel (refLE L ridxs) :=
  fun a b => by unfold refLE; exact inferInstance

/-- The full chronological merge of the spec. -/
def sortedRefs (L : RunnerLogs) (ridxs : List Nat) : List (Nat × Nat) :=
  (allRefs L ridxs).insertionSort (refLE L ridxs)

/-- The spec's merged window, in the engine's output format. -/
def specWindow (L : RunnerLogs) (ridxs : List Nat) : List ScrollStateLog :=
  (sortedRefs L ridxs).map (fun ip => ⟨ridxs.getD ip.1 0, ip.2⟩)

/-! ### `update_logs` touches only window, paddings and cursors -/

theorem update_logs_anchor_y (st : ScrollState) (L : RunnerLogs) :
    (st.update_logs L).anchor_y = st.anchor_y := by
  unfold ScrollState.update_logs; split <;> rfl

theorem update_logs_viewport (st : ScrollState) (L : RunnerLogs) :
    (st.update_logs L).viewport = st.viewport := by
  unfold ScrollState.update_logs; split <;> rfl

theorem update_logs_runner_idxs (st : ScrollState) (L : RunnerLogs) :
    (st.update_logs L).runner_idxs = st.runner_idxs := by
  unfold ScrollState.update_logs; split <;> rfl

theorem update_logs_enable_updates (st : ScrollState) (L : RunnerLogs) :
    (st.update_logs L).enable_updates = st.enable_updates := by
  unfold ScrollState.update_logs; split <;> rfl

/-! ### Reconciliation arithmetic -/

theorem reconcileClamp_sum (total nVis0 off0 : Nat) :
    (reconcileClamp total nVis0 off0).1 + (reconcileClamp total nVis0 off0).2
      = min (nVis0 + off0) total := by
  unfold reconcileClamp
  dsimp only
  split_ifs <;> dsimp only <;> omega

theorem prefetchMargin_sum (vis avail : Nat) :
    (prefetchMargin vis avail).1 + (prefetchMargin vis avail).2 = vis + avail := by
  unfold prefetchMargin
  split_ifs <;> dsimp only <;> omega

/-- After reconciliation and prefetch the three line counts always partition
`total_lines` exactly, whatever (possibly stale) geometry is supplied. -/
theorem reconcileAndPrefetch_sum (total nVis0 off0 : Nat) :
    (reconcileAndPrefetch total nVis0 off0).1
      + (reconcileAndPrefetch total nVis0 off0).2.1
      + (reconcileAndPrefetch total nVis0 off0).2.2 = total := by
  unfold reconcileAndPrefetch
  dsimp only
  have h1 := reconcileClamp_sum total nVis0 off0
  have h2 := prefetchMargin_sum (reconcileClamp total nVis0 off0).1
    (reconcileClamp total nVis0 off0).2
  have h3 := prefetchMargin_sum (prefetchMargin (reconcileClamp total nVis0 off0).1
    (reconcileClamp total nVis0 off0).2).1
    (total - (prefetchMargin (reconcileClamp total nVis0 off0).1
      (reconcileClamp total nVis0 off0).2).2
      - (prefetchMargin (reconcileClamp total nVis0 off0).1
        (reconcileClamp total nVis0 off0).2).1)
  omega

theorem reconcileAndPrefetch_le (total nVis0 off0 : Nat) :
    (reconcileAndPrefetch total nVis0 off0).2.1
      + (reconcileAndPrefetch total nVis0 off0).1 ≤ total := by
  have := reconcileAndPrefetch_sum total nVis0 off0
  omega

theorem reconcileAndPrefetch_zero (nVis0 off0 : Nat) :
    (reconcileAndPrefetch 0 nVis0 off0).1 = 0
      ∧ (reconcileAndPrefetch 0 nVis0 off0).2.1 = 0
      ∧ (reconcileAndPrefetch 0 nVis0 off0).2.2 = 0 := by
  have := reconcileAndPrefetch_sum 0 nVis0 off0
  omega

/-- `reconcileClamp` with the `usize` subtractions and the
`assert!(n_visible_lines >= diff)` of the source guarded: a `none` result
would mean a debug-build panic. -/
def reconcileClampChecked (total nVis0 off0 : Nat) : Option (Nat × Nat) :=
  if nVis0 + off0 > total then
    let diff := off0 + nVis0 - total
    if off0 ≥ diff then some (nVis0, off0 - diff)
    else
      -- assert!(n_visible_lines >= diff) after diff -= n_lines_after
      if nVis0 ≥ diff - off0 then some (nVis0 - (diff - off0), 0) else none
  else some (nVis0, off0)

/-- `reconcileAndPrefetch` with every `usize` subtraction and `assert!` of
the source guarded. -/
def reconcileAndPrefetchChecked (total nVis0 off0 : Nat) :
    Option (Nat × Nat × Nat) :=
  match reconcileClampChecked total nVis0 off0 with
  | none => none
  | some p1 =>
      -- assert!(n_visible_lines + n_lines_after <= total)
      if p1.1 + p1.2 ≤ total then
        let p2 := prefetchMargin p1.1 p1.2
        -- total_lines - off - n_visible_lines must not underflow
        if p2.2 + p2.1 ≤ total then
          let other0 := total - p2.2 - p2.1
          let p3 := prefetchMargin p2.1 other0
          some (p3.1, p2.2, p3.2)
        else none
      else none

theorem reconcileClampChecked_eq (total nVis0 off0 : Nat) :
    reconcileClampChecked total nVis0 off0
      = some (reconcileClamp total nVis0 off0) := by
  unfold reconcileClampChecked reconcileClamp
  dsimp only
  split_ifs <;> first
    | rfl
    | omega

/-- The reconciliation arithmetic never panics: the guarded version succeeds
on every input and agrees with the plain one. -/
theorem reconcileAndPrefetchChecked_eq (total nVis0 off0 : Nat) :
    reconcileAndPrefetchChecked total nVis0 off0
      = some (reconcileAndPrefetch total nVis0 off0) := by
  have h1 := reconcileClamp_sum total nVis0 off0
  have h2 := prefetchMargin_sum (reconcileClamp total nVis0 off0).1
    (reconcileClamp total nVis0 off0).2
  unfold reconcileAndPrefetchChecked reconcileAndPrefetch
  rw [reconcileClampChecked_eq]
  dsimp only
  rw [if_pos (by omega)]
  rw [if_pos (by omega)]

/-! ### Degenerate loops -/

theorem pickScan_nil (f : Nat → Option Nat) (repl : Nat → Nat → Bool)
    (acc : Option (Nat × Nat)) : pickScan f repl [] acc = acc := rfl

theorem rewindLoop_of_none (pick : List Nat → Option (Nat × Nat))
    (h : ∀ c, pick c = none) :
    ∀ fuel c ct target, rewindLoop pick fuel c ct target = c := by
  intro fuel
  induction fuel with
  | zero => intro c ct target; rfl
  | succ n ih =>
      intro c ct target
      unfold rewindLoop
      split
      · rw [h]
      · rfl

/-! ### Claim theorems: the easy operations -/

/-- C7.  While updates are disabled, an `OnScroll` event is a complete no-op:
state (viewport, anchor, cursors, window, paddings) is untouched and no
command is emitted; the recompute never runs. -/
theorem onScroll_disabled_noop (st : ScrollState) (ev : ScrollEvent)
    (L : RunnerLogs) (h : st.enable_updates = false) :
    st.update (Message.OnScroll ev) L = (st, []) := by
  unfold ScrollState.update
  rw [h]
  rfl

theorem onScroll_disabled_noop_witness :
    ScrollState.update ⟨0, 0, Anchor.End, [], none, [], [], false⟩
        (Message.OnScroll ⟨⟨0, 0⟩, ⟨0, 0⟩, 0⟩) []
      = (⟨0, 0, Anchor.End, [], none, [], [], false⟩, []) :=
  onScroll_disabled_noop _ _ _ rfl

/-- C4.  `set_runner_idxs` always resets the engine to `Anchor::End`, zero
cursors and no stored viewport, clears `enable_updates` synchronously, and
emits in order the jump-to-newest scroll command, the re-enable message and
the forced-recompute message. -/
theorem set_runner_idxs_reset (st : ScrollState) (idxs : List Nat) :
    (st.set_runner_idxs idxs).1.anchor_y = Anchor.End
      ∧ (st.set_runner_idxs idxs).1.cursors = List.replicate idxs.length 0
      ∧ (st.set_runner_idxs idxs).1.viewport = none
      ∧ (st.set_runner_idxs idxs).1.runner_idxs = idxs
      ∧ (st.set_runner_idxs idxs).1.enable_updates = false
      ∧ (st.set_runner_idxs idxs).2
          = [Command.scrollTo ⟨0, 0⟩, Command.done (Message.SetEnableUpdates true),
             Command.done Message.UpdateLogs] :=
  ⟨rfl, rfl, rfl, rfl, rfl, rfl⟩

theorem pickRewindEnd_nil (L : RunnerLogs) (lens c : List Nat) :
    pickRewindEnd L [] lens c = none := rfl

theorem pickRewindStart_nil (L : RunnerLogs) (lens c : List Nat) :
    pickRewindStart L [] lens c = none := rfl

/-- With no active source a recompute degenerates completely: empty window,
zero padding counts, stored cursors untouched. -/
theorem recomputeCore_empty (L : RunnerLogs) (anchor : Anchor)
    (vp : Option Viewport) (cs : List Nat) :
    recomputeCore L anchor vp [] cs = ⟨[], 0, 0, cs⟩ := by
  have hne : ∀ c : List Nat, pickRewindEnd L [] [] c = none := fun _ => rfl
  have hns : ∀ c : List Nat, pickRewindStart L [] [] c = none := fun _ => rfl
  cases anchor with
  | End =>
      cases vp with
      | none =>
          unfold recomputeCore
          dsimp only
          simp only [List.map_nil, List.sum_nil]
          obtain ⟨h1, h2, h3⟩ := reconcileAndPrefetch_zero 0 0
          rw [h1, h2, h3, rewindLoop_of_none _ hne]
          simp [fillLoop]
      | some v =>
          unfold recomputeCore
          dsimp only
          simp only [List.map_nil, List.sum_nil]
          obtain ⟨h1, h2, h3⟩ := reconcileAndPrefetch_zero (pxCeil v.bounds_height)
            (pxFloor v.offset_bottom.y)
          rw [h1, h2, h3, rewindLoop_of_none _ hne]
          simp [fillLoop]
  | Start =>
      cases vp with
      | none =>
          unfold recomputeCore
          dsimp only
          simp only [List.map_nil, List.sum_nil]
          obtain ⟨h1, h2, h3⟩ := reconcileAndPrefetch_zero 0 0
          rw [h1, h2, h3, rewindLoop_of_none _ hns]
          simp [fillLoop]
      | some v =>
          unfold recomputeCore
          dsimp only
          simp only [List.map_nil, List.sum_nil]
          obtain ⟨h1, h2, h3⟩ := reconcileAndPrefetch_zero (pxCeil v.bounds_height)
            (pxFloor v.offset_top.y)
          rw [h1, h2, h3, rewindLoop_of_none _ hns]
          simp [fillLoop]

/-- C8.  Zero active sources: every recompute yields an empty window and zero
padding, for any stored viewport metrics (even ones inconsistent with zero
total lines); the line height it would divide by is a nonzero constant, and
the reconciliation arithmetic (the only `usize` subtractions and `assert!`s
reached with no active source) cannot panic on any input. -/
theorem emptyActiveSet_recompute (st : ScrollState) (L : RunnerLogs)
    (hr : st.runner_idxs = []) (he : st.enable_updates = true) :
    (st.update_logs L).logs = []
      ∧ (st.update_logs L).space_before = 0
      ∧ (st.update_logs L).space_after = 0
      ∧ (0 : ℚ) < lineHeight
      ∧ (∀ t v o, reconcileAndPrefetchChecked t v o
            = some (reconcileAndPrefetch t v o)) := by
  unfold ScrollState.update_logs
  rw [he, hr, if_pos rfl, recomputeCore_empty]
  refine ⟨rfl, ?_, ?_, ?_, reconcileAndPrefetchChecked_eq⟩
  · norm_num
  · norm_num
  · norm_num [lineHeight]

theorem emptyActiveSet_recompute_witness :
    (ScrollState.update_logs ⟨5, 7, Anchor.End, [⟨0, 0⟩], some ⟨⟨1, 2⟩, ⟨3, 4⟩, 99⟩, [], [], true⟩
        [[10, 20]]).logs = []
      ∧ (ScrollState.update_logs ⟨5, 7, Anchor.End, [⟨0, 0⟩], some ⟨⟨1, 2⟩, ⟨3, 4⟩, 99⟩, [], [], true⟩
          [[10, 20]]).space_before = 0
      ∧ (ScrollState.update_logs ⟨5, 7, Anchor.End, [⟨0, 0⟩], some ⟨⟨1, 2⟩, ⟨3, 4⟩, 99⟩, [], [], true⟩
          [[10, 20]]).space_after = 0
      ∧ (0 : ℚ) < lineHeight
      ∧ (∀ t v o, reconcileAndPrefetchChecked t v o
            = some (reconcileAndPrefetch t v o)) :=
  emptyActiveSet_recompute _ _ rfl rfl

/-- The recompute an `OnScroll` event performs, on the state with the freshly
stored viewport. -/
def afterScrollRecompute (st : ScrollState) (ev : ScrollEvent) (L : RunnerLogs) :
    ScrollState :=
  ScrollState.update_logs { st with viewport := some (storedViewport ev st.anchor_y) } L

/-- C3 (amended).  The `OnScroll` handler with updates enabled: under `End`
anchor with the offset from the newest edge above `2.1 * line_height` it
flips to `Start`, replaces every stored cursor `c[i]` (as just updated by the
recompute the event runs first) by `len(log[i]) - c[i]`, clears
`enable_updates`, and emits in order the scroll jump to the equivalent
offset-from-top, the re-enable and the forced recompute; under `Start` anchor
with the offset from the newest edge below the threshold it flips to `End`
the same way, jumping to the newest-edge origin; otherwise the anchor is
unchanged and the state is exactly the recompute's result (which may update
the stored cursors via its boundary snapshot). -/
theorem onScroll_flip_protocol (st : ScrollState) (ev : ScrollEvent)
    (L : RunnerLogs) (he : st.enable_updates = true) :
    (st.anchor_y = Anchor.End → ev.absolute_offset.y > 21 / 10 * lineHeight →
        st.update (Message.OnScroll ev) L
          = ({ afterScrollRecompute st ev L with
                anchor_y := Anchor.Start,
                cursors := flipCursors L (afterScrollRecompute st ev L).runner_idxs
                  (afterScrollRecompute st ev L).cursors,
                enable_updates := false },
             [Command.scrollTo ev.absolute_offset_reversed,
              Command.done (Message.SetEnableUpdates true),
              Command.done Message.UpdateLogs]))
      ∧ (st.anchor_y = Anchor.End → ¬ ev.absolute_offset.y > 21 / 10 * lineHeight →
          st.update (Message.OnScroll ev) L = (afterScrollRecompute st ev L, []))
      ∧ (st.anchor_y = Anchor.Start →
          ev.absolute_offset_reversed.y < 21 / 10 * lineHeight →
          st.update (Message.OnScroll ev) L
            = ({ afterScrollRecompute st ev L with
                  anchor_y := Anchor.End,
                  cursors := flipCursors L (afterScrollRecompute st ev L).runner_idxs
                    (afterScrollRecompute st ev L).cursors,
                  enable_updates := false },
               [Command.scrollTo ⟨0, 0⟩,
                Command.done (Message.SetEnableUpdates true),
                Command.done Message.UpdateLogs]))
      ∧ (st.anchor_y = Anchor.Start →
          ¬ ev.absolute_offset_reversed.y < 21 / 10 * lineHeight →
          st.update (Message.OnScroll ev) L = (afterScrollRecompute st ev L, [])) := by
  obtain ⟨sb, sa, ay, lg, vp, ri, cu, en⟩ := st
  simp only at he
  subst he
  refine ⟨fun ha hthr => ?_, fun ha hthr => ?_, fun ha hthr => ?_, fun ha hthr => ?_⟩ <;>
    · simp only at ha
      subst ha
      unfold ScrollState.update afterScrollRecompute
      dsimp only
      rw [if_pos rfl, update_logs_anchor_y]
      dsimp only
      first
        | rw [if_pos hthr]
        | rw [if_neg hthr]

theorem onScroll_flip_protocol_witness :
    ((0 : ℚ) = 0
      ∧ ScrollState.update ⟨0, 0, Anchor.End, [], none, [], [], true⟩
          (Message.OnScroll ⟨⟨0, 0⟩, ⟨0, 0⟩, 0⟩) []
        = (afterScrollRecompute ⟨0, 0, Anchor.End, [], none, [], [], true⟩
            ⟨⟨0, 0⟩, ⟨0, 0⟩, 0⟩ [], [])) :=
  ⟨rfl,
   (onScroll_flip_protocol ⟨0, 0, Anchor.End, [], none, [], [], true⟩
      ⟨⟨0, 0⟩, ⟨0, 0⟩, 0⟩ [] rfl).2.1 rfl (by norm_num [lineHeight])⟩

/-- C3's claim that in the non-flip case "the anchor and cursors are
unchanged" is false: an in-threshold `OnScroll` (no flip: anchor stays `End`,
no command emitted) still runs a recompute whose boundary snapshot rewrites
the stored cursors, here from `[1]` to `[0]`. -/
theorem onScroll_cursors_change_counterexample :
    (ScrollState.update ⟨0, 0, Anchor.End, [], none, [0], [1], true⟩
        (Message.OnScroll ⟨⟨0, 0⟩, ⟨0, 0⟩, 0⟩) [[0]]).2 = []
      ∧ (ScrollState.update ⟨0, 0, Anchor.End, [], none, [0], [1], true⟩
          (Message.OnScroll ⟨⟨0, 0⟩, ⟨0, 0⟩, 0⟩) [[0]]).1.anchor_y = Anchor.End
      ∧ (ScrollState.update ⟨0, 0, Anchor.End, [], none, [0], [1], true⟩
          (Message.OnScroll ⟨⟨0, 0⟩, ⟨0, 0⟩, 0⟩) [[0]]).1.cursors = [0]
      ∧ [0] ≠ [1] := by
  norm_num [ScrollState.update, ScrollState.update_logs, recomputeCore,
    storedViewport, reconcileAndPrefetch, reconcileClamp, prefetchMargin,
    pxCeil, pxFloor, lineHeight, rewindLoop, fillLoop, pickScan, pickMinDesc,
    pickMaxAsc, pickRewindEnd, pickFillEnd, candRewindEnd, candFillEnd,
    logTime, logLen, logOf, List.range]

/-! ### List indexing and sum helpers -/

theorem getD_set_self (c : List Nat) (i x : Nat) (h : i < c.length) :
    (c.set i x).getD i 0 = x := by
  simp [List.getD_eq_getElem?_getD, List.getElem?_set_self', h]

theorem getD_set_ne (c : List Nat) (i j x : Nat) (h : j ≠ i) :
    (c.set i x).getD j 0 = c.getD j 0 := by
  simp [List.getD_eq_getElem?_getD, List.getElem?_set_ne h.symm]

theorem sum_set_decrement (c : List Nat) :
    ∀ i, i < c.length → c.getD i 0 ≠ 0
      → (c.set i (c.getD i 0 - 1)).sum + 1 = c.sum := by
  induction c with
  | nil => intro i h; simp at h
  | cons a as ih =>
      intro i hi hne
      cases i with
      | zero =>
          simp only [List.getD_cons_zero] at hne ⊢
          simp only [List.set_cons_zero, List.sum_cons]
          omega
      | succ j =>
          simp only [List.getD_cons_succ] at hne ⊢
          simp only [List.set_cons_succ, List.sum_cons]
          have := ih j (by simpa using hi) hne
          omega

theorem sum_set_increment (c : List Nat) :
    ∀ i, i < c.length → (c.set i (c.getD i 0 + 1)).sum = c.sum + 1 := by
  induction c with
  | nil => intro i h; simp at h
  | cons a as ih =>
      intro i hi
      cases i with
      | zero =>
          simp only [List.getD_cons_zero, List.set_cons_zero, List.sum_cons]
          omega
      | succ j =>
          simp only [List.getD_cons_succ, List.set_cons_succ, List.sum_cons]
          have := ih j (by simpa using hi)
          omega

theorem eq_of_getD_eq (c d : List Nat) (hlen : c.length = d.length)
    (h : ∀ i, i < c.length → c.getD i 0 = d.getD i 0) : c = d := by
  refine List.ext_getElem hlen (fun i h1 h2 => ?_)
  have := h i h1
  rwa [List.getD_eq_getElem _ _ h1, List.getD_eq_getElem _ _ h2] at this

theorem sum_zero_of_getD_zero (c : List Nat)
    (h : ∀ i, i < c.length → c.getD i 0 = 0) : c.sum = 0 := by
  refine List.sum_eq_zero (fun x hx => ?_)
  obtain ⟨i, hi, rfl⟩ := List.mem_iff_getElem.1 hx
  rw [← List.getD_eq_getElem c 0 hi]
  exact h i hi

theorem lens_getD (L : RunnerLogs) (ridxs : List Nat) (i : Nat)
    (h : i < ridxs.length) :
    (ridxs.map (logLen L)).getD i 0 = logLen L (ridxs.getD i 0) := by
  rw [List.getD_eq_getElem _ _ (by simpa using h), List.getElem_map,
    List.getD_eq_getElem _ _ h]

/-! ### Characterizations of the candidate scans -/

theorem pickScan_none_iff (f : Nat → Option Nat) (repl : Nat → Nat → Bool) :
    ∀ (l : List Nat) (acc : Option (Nat × Nat)),
      pickScan f repl l acc = none ↔ acc = none ∧ ∀ i ∈ l, f i = none := by
  intro l
  induction l with
  | nil => intro acc; simp [pickScan]
  | cons i rest ih =>
      intro acc
      have step : pickScan f repl (i :: rest) acc
          = pickScan f repl rest
              (match f i with
               | none => acc
               | some t =>
                 match acc with
                 | none => some (i, t)
                 | some ju => if repl t ju.2 then some (i, t) else some ju) := rfl
      rw [step, ih]
      cases hf : f i with
      | none => simp [hf]
      | some t =>
          cases acc with
          | none => simp [hf]
          | some ju => by_cases hr : repl t ju.2 <;> simp [hf, hr]

theorem pickScan_cons (f : Nat → Option Nat) (repl : Nat → Nat → Bool)
    (i : Nat) (rest : List Nat) (acc : Option (Nat × Nat)) :
    pickScan f repl (i :: rest) acc
      = pickScan f repl rest
          (match f i with
           | none => acc
           | some t =>
             match acc with
             | none => some (i, t)
             | some ju => if repl t ju.2 then some (i, t) else some ju) := rfl

theorem pickScan_append (f : Nat → Option Nat) (repl : Nat → Nat → Bool) :
    ∀ (l1 l2 : List Nat) (acc : Option (Nat × Nat)),
      pickScan f repl (l1 ++ l2) acc = pickScan f repl l2 (pickScan f repl l1 acc) := by
  intro l1
  induction l1 with
  | nil => intro l2 acc; rfl
  | cons i rest ih => intro l2 acc; exact ih l2 _

/-- The ascending scan with strict replacement (`log.0 > t`) returns the
maximal candidate timestamp, timestamp ties resolved to the lowest slot. -/
theorem pickMaxAsc_spec (f : Nat → Option Nat) :
    ∀ (n : Nat) (res : Nat × Nat), pickMaxAsc n f = some res →
      res.1 < n ∧ f res.1 = some res.2 ∧
        ∀ k, k < n → k ≠ res.1 → ∀ u, f k = some u →
          u < res.2 ∨ (u = res.2 ∧ res.1 < k) := by
  intro n
  induction n with
  | zero => intro res h; simp [pickMaxAsc, pickScan, List.range_zero] at h
  | succ m ih =>
      intro res h
      rw [pickMaxAsc, List.range_succ, pickScan_append] at h
      have hprev : pickScan f (fun t u => decide (u < t)) (List.range m) none
          = pickMaxAsc m f := rfl
      rw [hprev] at h
      have hstep : pickScan f (fun t u => decide (u < t)) [m] (pickMaxAsc m f)
          = (match f m with
             | none => pickMaxAsc m f
             | some t =>
               match pickMaxAsc m f with
               | none => some (m, t)
               | some ju => if decide (ju.2 < t) then some (m, t) else some ju) := rfl
      rw [hstep] at h
      cases hf : f m with
      | none =>
          rw [hf] at h
          obtain ⟨h1, h2, h3⟩ := ih res h
          refine ⟨by omega, h2, fun k hk hne u hu => ?_⟩
          rcases Nat.lt_succ_iff_lt_or_eq.1 hk with hk' | rfl
          · exact h3 k hk' hne u hu
          · rw [hf] at hu; cases hu
      | some t =>
          rw [hf] at h
          cases hp : pickMaxAsc m f with
          | none =>
              rw [hp] at h
              have hall := (pickScan_none_iff f _ (List.range m) none).1 hp
              cases h
              refine ⟨by omega, hf, fun k hk hne u hu => ?_⟩
              rcases Nat.lt_succ_iff_lt_or_eq.1 hk with hk' | rfl
              · rw [hall.2 k (List.mem_range.2 hk')] at hu; cases hu
              · omega
          | some pu =>
              rw [hp] at h
              dsimp only at h
              obtain ⟨h1, h2, h3⟩ := ih pu hp
              by_cases hr : pu.2 < t
              · rw [if_pos (by simpa using hr)] at h
                cases h
                refine ⟨by omega, hf, fun k hk hne u hu => ?_⟩
                rcases Nat.lt_succ_iff_lt_or_eq.1 hk with hk' | rfl
                · by_cases hkp : k = pu.1
                  · subst hkp; rw [h2] at hu; cases hu; omega
                  · rcases h3 k hk' hkp u hu with h4 | ⟨h4, h5⟩ <;> omega
                · omega
              · rw [if_neg (by simpa using hr)] at h
                cases h
                refine ⟨by omega, h2, fun k hk hne u hu => ?_⟩
                rcases Nat.lt_succ_iff_lt_or_eq.1 hk with hk' | rfl
                · exact h3 k hk' hne u hu
                · rw [hf] at hu; cases hu; omega

/-- Invariant-carrying form of the descending scan with non-strict
replacement (`log.0 <= t`): starting from an accumulator that is optimal for
the already-scanned slots `[m, n)`, the scan of `[0, m)` returns the minimal
candidate timestamp overall, ties resolved to the lowest slot. -/
theorem pickScan_desc_min (f : Nat → Option Nat) (n : Nat) :
    ∀ (m : Nat), m ≤ n →
      ∀ (acc : Option (Nat × Nat)),
        (∀ jt : Nat × Nat, acc = some jt → m ≤ jt.1 ∧ jt.1 < n ∧ f jt.1 = some jt.2 ∧
            ∀ k, m ≤ k → k < n → k ≠ jt.1 → ∀ u, f k = some u →
              jt.2 < u ∨ (jt.2 = u ∧ jt.1 < k)) →
        (acc = none → ∀ k, m ≤ k → k < n → f k = none) →
        ∀ res, pickScan f (fun t u => decide (t ≤ u)) (List.range m).reverse acc = some res →
          res.1 < n ∧ f res.1 = some res.2 ∧
            ∀ k, k < n → k ≠ res.1 → ∀ u, f k = some u →
              res.2 < u ∨ (res.2 = u ∧ res.1 < k) := by
  intro m
  induction m with
  | zero =>
      intro _ acc hsome _ res hres
      simp only [List.range_zero, List.reverse_nil, pickScan] at hres
      obtain ⟨_, h2, h3, h4⟩ := hsome res hres
      exact ⟨h2, h3, fun k hk hne u hu => h4 k (Nat.zero_le k) hk hne u hu⟩
  | succ m ih =>
      intro hmn acc hsome hnone res hres
      have hsplit : (List.range (m + 1)).reverse = m :: (List.range m).reverse := by
        rw [List.range_succ, List.reverse_append]
        rfl
      rw [hsplit, pickScan_cons] at hres
      cases hf : f m with
      | none =>
          rw [hf] at hres
          dsimp only at hres
          refine ih (by omega) acc (fun jt hjt => ?_) (fun ha k hk1 hk2 => ?_) res hres
          · obtain ⟨ha1, ha2, ha3, ha4⟩ := hsome jt hjt
            refine ⟨by omega, ha2, ha3, fun k hk1 hk2 hne u hu => ?_⟩
            rcases Nat.eq_or_lt_of_le hk1 with rfl | hk1'
            · rw [hf] at hu; cases hu
            · exact ha4 k (by omega) hk2 hne u hu
          · rcases Nat.eq_or_lt_of_le hk1 with rfl | hk1'
            · exact hf
            · exact hnone ha k (by omega) hk2
      | some t =>
          rw [hf] at hres
          dsimp only at hres
          cases hacc : acc with
          | none =>
              rw [hacc] at hres
              dsimp only at hres
              refine ih (by omega) (some (m, t)) (fun jt hjt => ?_)
                (fun ha => by cases ha) res hres
              cases hjt
              refine ⟨le_rfl, by omega, hf, fun k hk1 hk2 hne u hu => ?_⟩
              rcases Nat.eq_or_lt_of_le hk1 with rfl | hk1'
              · omega
              · rw [hnone hacc k (by omega) hk2] at hu; cases hu
          | some ju =>
              rw [hacc] at hres
              dsimp only at hres
              obtain ⟨ha1, ha2, ha3, ha4⟩ := hsome ju hacc
              by_cases hr : t ≤ ju.2
              · rw [if_pos (by simpa using hr)] at hres
                refine ih (by omega) (some (m, t)) (fun jt hjt => ?_)
                  (fun ha => by cases ha) res hres
                cases hjt
                refine ⟨le_rfl, by omega, hf, fun k hk1 hk2 hne u hu => ?_⟩
                rcases Nat.eq_or_lt_of_le hk1 with rfl | hk1'
                · omega
                · by_cases hkj : k = ju.1
                  · subst hkj; rw [ha3] at hu; cases hu; omega
                  · rcases ha4 k (by omega) hk2 hkj u hu with h4 | ⟨h4, h5⟩ <;> omega
              · rw [if_neg (by simpa using hr)] at hres
                refine ih (by omega) (some ju) (fun jt hjt => ?_)
                  (fun ha => by cases ha) res hres
                cases hjt
                refine ⟨by omega, ha2, ha3, fun k hk1 hk2 hne u hu => ?_⟩
                rcases Nat.eq_or_lt_of_le hk1 with rfl | hk1'
                · rw [hf] at hu; cases hu; omega
                · exact ha4 k (by omega) hk2 hne u hu

/-- The descending scan with replacement on `log.0 <= t` computes the strict
minimum in the (timestamp, slot) lexicographic order. -/
theorem pickMinDesc_spec (n : Nat) (f : Nat → Option Nat) (res : Nat × Nat)
    (h : pickMinDesc n f = some res) :
    res.1 < n ∧ f res.1 = some res.2 ∧
      ∀ k, k < n → k ≠ res.1 → ∀ u, f k = some u →
        res.2 < u ∨ (res.2 = u ∧ res.1 < k) :=
  pickScan_desc_min f n n le_rfl none
    (fun _ hjt => by cases hjt)
    (fun _ k hk1 hk2 => by omega)
    res h

theorem pickMinDesc_none_iff (n : Nat) (f : Nat → Option Nat) :
    pickMinDesc n f = none ↔ ∀ i, i < n → f i = none := by
  unfold pickMinDesc
  rw [pickScan_none_iff]
  simp [List.mem_reverse, List.mem_range]

theorem pickMaxAsc_none_iff (n : Nat) (f : Nat → Option Nat) :
    pickMaxAsc n f = none ↔ ∀ i, i < n → f i = none := by
  unfold pickMaxAsc
  rw [pickScan_none_iff]
  simp [List.mem_range]

/-! ### Skip-condition facts for the four concrete picks -/

theorem pickRewindEnd_some (L : RunnerLogs) (ridxs lens c : List Nat)
    (it : Nat × Nat) (h : pickRewindEnd L ridxs lens c = some it) :
    it.1 < ridxs.length ∧ c.getD it.1 0 ≠ 0 := by
  unfold pickRewindEnd at h
  obtain ⟨h1, h2, _⟩ := pickMinDesc_spec _ _ _ h
  refine ⟨h1, fun hc => ?_⟩
  rw [candRewindEnd, if_pos hc] at h2
  cases h2

theorem pickRewindEnd_none (L : RunnerLogs) (ridxs lens c : List Nat)
    (h : pickRewindEnd L ridxs lens c = none) :
    ∀ i, i < ridxs.length → c.getD i 0 = 0 := by
  unfold pickRewindEnd at h
  intro i hi
  have := (pickMinDesc_none_iff _ _).1 h i hi
  rw [candRewindEnd] at this
  by_cases hc : c.getD i 0 = 0
  · exact hc
  · rw [if_neg hc] at this; cases this

theorem pickRewindStart_some (L : RunnerLogs) (ridxs lens c : List Nat)
    (it : Nat × Nat) (h : pickRewindStart L ridxs lens c = some it) :
    it.1 < ridxs.length ∧ c.getD it.1 0 ≠ 0 := by
  unfold pickRewindStart at h
  obtain ⟨h1, h2, _⟩ := pickMaxAsc_spec _ _ _ h
  refine ⟨h1, fun hc => ?_⟩
  rw [candRewindStart, if_pos hc] at h2
  cases h2

theorem pickRewindStart_none (L : RunnerLogs) (ridxs lens c : List Nat)
    (h : pickRewindStart L ridxs lens c = none) :
    ∀ i, i < ridxs.length → c.getD i 0 = 0 := by
  unfold pickRewindStart at h
  intro i hi
  have := (pickMaxAsc_none_iff _ _).1 h i hi
  rw [candRewindStart] at this
  by_cases hc : c.getD i 0 = 0
  · exact hc
  · rw [if_neg hc] at this; cases this

theorem pickFillEnd_some (L : RunnerLogs) (ridxs lens c : List Nat)
    (it : Nat × Nat × Nat) (h : pickFillEnd L ridxs lens c = some it) :
    it.1 < ridxs.length ∧ c.getD it.1 0 ≠ lens.getD it.1 0 := by
  unfold pickFillEnd at h
  cases hm : pickMaxAsc ridxs.length (candFillEnd L ridxs lens c) with
  | none => rw [hm] at h; cases h
  | some ju =>
      rw [hm] at h
      cases h
      obtain ⟨h1, h2, _⟩ := pickMaxAsc_spec _ _ _ hm
      refine ⟨h1, fun hc => ?_⟩
      rw [candFillEnd, if_pos hc] at h2
      cases h2

theorem pickFillEnd_none (L : RunnerLogs) (ridxs lens c : List Nat)
    (h : pickFillEnd L ridxs lens c = none) :
    ∀ i, i < ridxs.length → c.getD i 0 = lens.getD i 0 := by
  unfold pickFillEnd at h
  intro i hi
  cases hm : pickMaxAsc ridxs.length (candFillEnd L ridxs lens c) with
  | some ju => rw [hm] at h; cases h
  | none =>
      have := (pickMaxAsc_none_iff _ _).1 hm i hi
      rw [candFillEnd] at this
      by_cases hc : c.getD i 0 = lens.getD i 0
      · exact hc
      · rw [if_neg hc] at this; cases this

theorem pickFillStart_some (L : RunnerLogs) (ridxs lens c : List Nat)
    (it : Nat × Nat × Nat) (h : pickFillStart L ridxs lens c = some it) :
    it.1 < ridxs.length ∧ c.getD it.1 0 ≠ lens.getD it.1 0 := by
  unfold pickFillStart at h
  cases hm : pickMinDesc ridxs.length (candFillStart L ridxs lens c) with
  | none => rw [hm] at h; cases h
  | some ju =>
      rw [hm] at h
      cases h
      obtain ⟨h1, h2, _⟩ := pickMinDesc_spec _ _ _ hm
      refine ⟨h1, fun hc => ?_⟩
      rw [candFillStart, if_pos hc] at h2
      cases h2

theorem pickFillStart_none (L : RunnerLogs) (ridxs lens c : List Nat)
    (h : pickFillStart L ridxs lens c = none) :
    ∀ i, i < ridxs.length → c.getD i 0 = lens.getD i 0 := by
  unfold pickFillStart at h
  intro i hi
  cases hm : pickMinDesc ridxs.length (candFillStart L ridxs lens c) with
  | some ju => rw [hm] at h; cases h
  | none =>
      have := (pickMinDesc_none_iff _ _).1 hm i hi
      rw [candFillStart] at this
      by_cases hc : c.getD i 0 = lens.getD i 0
      · exact hc
      · rw [if_neg hc] at this; cases this

/-! ### Generic facts about the rewind loop -/

/-- After the rewind loop (with at least `ct - target` fuel, as supplied by
`recomputeCore`): the cursor total has been driven to at most `target`
(a `none` pick means every cursor is already zero), the list length is
preserved, and cursors only decrease. -/
theorem rewindLoop_post (pick : List Nat → Option (Nat × Nat)) (n : Nat)
    (hsome : ∀ c it, pick c = some it → it.1 < n ∧ c.getD it.1 0 ≠ 0)
    (hnone : ∀ c, pick c = none → ∀ i, i < n → c.getD i 0 = 0) :
    ∀ fuel c ct target, ct = c.sum → c.length = n → ct - target ≤ fuel →
      (rewindLoop pick fuel c ct target).sum ≤ target
      ∧ (rewindLoop pick fuel c ct target).length = n
      ∧ ∀ i, (rewindLoop pick fuel c ct target).getD i 0 ≤ c.getD i 0 := by
  intro fuel
  induction fuel with
  | zero =>
      intro c ct target hct hlen hfuel
      simp only [rewindLoop]
      exact ⟨by omega, hlen, fun i => le_rfl⟩
  | succ fuel ih =>
      intro c ct target hct hlen hfuel
      simp only [rewindLoop]
      by_cases hgt : ct > target
      · rw [if_pos hgt]
        cases hp : pick c with
        | none =>
            have : c.sum = 0 :=
              sum_zero_of_getD_zero c (fun i hi => hnone c hp i (by omega))
            exact ⟨by omega, hlen, fun i => le_rfl⟩
        | some it =>
            obtain ⟨hi, hc⟩ := hsome c it hp
            have hilen : it.1 < c.length := by omega
            have hlen' : (c.set it.1 (c.getD it.1 0 - 1)).length = n := by
              simp [hlen]
            have hsum' : (c.set it.1 (c.getD it.1 0 - 1)).sum + 1 = c.sum :=
              sum_set_decrement c it.1 hilen hc
            obtain ⟨r1, r2, r3⟩ := ih (c.set it.1 (c.getD it.1 0 - 1)) (ct - 1) target
              (by omega) hlen' (by omega)
            refine ⟨r1, r2, fun i => le_trans (r3 i) ?_⟩
            by_cases hii : i = it.1
            · subst hii
              rw [getD_set_self _ _ _ hilen]
              omega
            · rw [getD_set_ne _ _ _ _ hii]
      · rw [if_neg hgt]
        exact ⟨by omega, hlen, fun i => le_rfl⟩

/-- A rewind whose running total is already at or below the target does not
move. -/
theorem rewindLoop_noStep (pick : List Nat → Option (Nat × Nat))
    (fuel : Nat) (c : List Nat) (ct target : Nat) (h : ¬ ct > target) :
    rewindLoop pick fuel c ct target = c := by
  cases fuel with
  | zero => rfl
  | succ fuel => simp only [rewindLoop]; rw [if_neg h]

/-- Fuel adequacy of the rewind loop: any fuel at least `ct - target` (in
particular the `ct` that `recomputeCore` passes) gives the same result as any
larger fuel — the loop has stabilized. -/
theorem rewindLoop_fuel (pick : List Nat → Option (Nat × Nat)) :
    ∀ fuel extra c ct target, ct - target ≤ fuel →
      rewindLoop pick (fuel + extra) c ct target = rewindLoop pick fuel c ct target := by
  intro fuel
  induction fuel with
  | zero =>
      intro extra c ct target hfuel
      simp only [rewindLoop, Nat.zero_add]
      exact rewindLoop_noStep pick extra c ct target (by omega)
  | succ fuel ih =>
      intro extra c ct target hfuel
      rw [show fuel + 1 + extra = (fuel + extra) + 1 by omega]
      simp only [rewindLoop]
      by_cases hgt : ct > target
      · rw [if_pos hgt, if_pos hgt]
        cases hp : pick c with
        | none => rfl
        | some it => exact ih extra _ (ct - 1) target (by omega)
      · rw [if_neg hgt, if_neg hgt]

/-! ### Generic facts about the fill loop -/

/-- Master invariant of the fill loop.  Starting below-or-at the skip target
with an empty window (or past it with the counting invariant), with cursors
within bounds and `target + nVis` lines available: the loop produces exactly
`nVis` window entries (`max` covers an already-full accumulator), and the
snapshot it may record is a within-bounds cursor vector summing exactly to
`target`. -/
theorem fillLoop_post (pick : List Nat → Option (Nat × Nat × Nat)) (n : Nat)
    (lens : List Nat) (hlenslen : lens.length = n)
    (hsome : ∀ c it, pick c = some it → it.1 < n ∧ c.getD it.1 0 ≠ lens.getD it.1 0)
    (hnone : ∀ c, pick c = none → ∀ i, i < n → c.getD i 0 = lens.getD i 0)
    (target nVis : Nat) (htot : target + nVis ≤ lens.sum) :
    ∀ fuel c ct acc saved,
      c.length = n → ct = c.sum →
      (∀ i, i < n → c.getD i 0 ≤ lens.getD i 0) →
      ((ct ≤ target ∧ acc = []) ∨ (target ≤ ct ∧ acc.length + target = ct)) →
      (target - ct) + (nVis - acc.length) ≤ fuel →
      (fillLoop pick fuel c ct target nVis acc saved).1.length = max acc.length nVis
      ∧ ((fillLoop pick fuel c ct target nVis acc saved).2 = saved
          ∨ ∃ s, (fillLoop pick fuel c ct target nVis acc saved).2 = some s
              ∧ s.length = n ∧ (∀ i, i < n → s.getD i 0 ≤ lens.getD i 0)
              ∧ s.sum = target) := by
  intro fuel
  induction fuel with
  | zero =>
      intro c ct acc saved hclen hct hbound hinv hfuel
      simp only [fillLoop]
      exact ⟨by omega, Or.inl (by trivial)⟩
  | succ fuel ih =>
      intro c ct acc saved hclen hct hbound hinv hfuel
      simp only [fillLoop]
      by_cases hvis : acc.length < nVis
      · rw [if_pos hvis]
        cases hp : pick c with
        | none =>
            have hceq : c = lens := eq_of_getD_eq c lens (by omega)
              (fun i hi => hnone c hp i (by omega))
            have : ct = lens.sum := by rw [hct, hceq]
            omega
        | some it =>
            dsimp only
            obtain ⟨hi, hne⟩ := hsome c it hp
            have hilen : it.1 < c.length := by omega
            have hlt : c.getD it.1 0 < lens.getD it.1 0 :=
              lt_of_le_of_ne (hbound it.1 hi) hne
            have hclen' : (c.set it.1 (c.getD it.1 0 + 1)).length = n := by
              simp [hclen]
            have hsum' : (c.set it.1 (c.getD it.1 0 + 1)).sum = c.sum + 1 :=
              sum_set_increment c it.1 hilen
            have hbound' : ∀ i, i < n →
                (c.set it.1 (c.getD it.1 0 + 1)).getD i 0 ≤ lens.getD i 0 := by
              intro i hi'
              by_cases hii : i = it.1
              · subst hii
                rw [getD_set_self _ _ _ hilen]
                omega
              · rw [getD_set_ne _ _ _ _ hii]
                exact hbound i hi'
            by_cases heq : ct = target
            · rw [if_pos (by omega), if_pos heq]
              obtain ⟨r1, r2⟩ := ih (c.set it.1 (c.getD it.1 0 + 1)) (ct + 1)
                (acc ++ [(it.1, it.2.1)]) (some c) hclen' (by omega) hbound'
                (Or.inr ⟨by omega, by
                  simp only [List.length_append, List.length_cons, List.length_nil]
                  rcases hinv with ⟨h1, h2⟩ | ⟨h1, h2⟩
                  · subst h2
                    simp only [List.length_nil]
                    omega
                  · omega⟩)
                (by simp only [List.length_append, List.length_cons, List.length_nil]
                    omega)
              refine ⟨by rw [r1]; simp only [List.length_append, List.length_cons,
                List.length_nil]; omega, ?_⟩
              rcases r2 with r2 | r2
              · exact Or.inr ⟨c, r2, hclen, hbound, by omega⟩
              · exact Or.inr r2
            · by_cases hge : ct ≥ target
              · rw [if_pos hge, if_neg heq]
                have hinv2 : acc.length + target = ct := by
                  rcases hinv with ⟨h1, h2⟩ | ⟨h1, h2⟩
                  · omega
                  · exact h2
                obtain ⟨r1, r2⟩ := ih (c.set it.1 (c.getD it.1 0 + 1)) (ct + 1)
                  (acc ++ [(it.1, it.2.1)]) saved hclen' (by omega) hbound'
                  (Or.inr ⟨by omega, by
                    simp only [List.length_append, List.length_cons, List.length_nil]
                    omega⟩)
                  (by simp only [List.length_append, List.length_cons, List.length_nil]
                      omega)
                refine ⟨by rw [r1]; simp only [List.length_append, List.length_cons,
                  List.length_nil]; omega, r2⟩
              · rw [if_neg hge, if_neg heq]
                have hacc : acc = [] := by
                  rcases hinv with ⟨h1, h2⟩ | ⟨h1, h2⟩
                  · exact h2
                  · exact absurd h1 hge
                obtain ⟨r1, r2⟩ := ih (c.set it.1 (c.getD it.1 0 + 1)) (ct + 1)
                  acc saved hclen' (by omega) hbound'
                  (Or.inl ⟨by omega, hacc⟩) (by omega)
                exact ⟨r1, r2⟩
      · rw [if_neg hvis]
        dsimp only
        exact ⟨by omega, Or.inl rfl⟩

/-- Fuel adequacy of the fill loop: fuel `(target - ct) + (nVis - |acc|)`
suffices (in particular the `target + nVis` that `recomputeCore` passes);
any larger fuel gives the same result — the loop has stabilized. -/
theorem fillLoop_fuel (pick : List Nat → Option (Nat × Nat × Nat)) :
    ∀ fuel extra c ct target nVis acc saved,
      (target - ct) + (nVis - acc.length) ≤ fuel →
      fillLoop pick (fuel + extra) c ct target nVis acc saved
        = fillLoop pick fuel c ct target nVis acc saved := by
  intro fuel
  induction fuel with
  | zero =>
      intro extra c ct target nVis acc saved hfuel
      simp only [Nat.zero_add, fillLoop]
      cases extra with
      | zero => rfl
      | succ e =>
          simp only [fillLoop]
          rw [if_neg (by omega)]
  | succ fuel ih =>
      intro extra c ct target nVis acc saved hfuel
      rw [show fuel + 1 + extra = (fuel + extra) + 1 by omega]
      simp only [fillLoop]
      by_cases hvis : acc.length < nVis
      · rw [if_pos hvis, if_pos hvis]
        cases hp : pick c with
        | none => rfl
        | some it =>
            refine ih extra _ (ct + 1) target nVis _ _ ?_
            by_cases hge : ct ≥ target
            · rw [if_pos hge]
              simp only [List.length_append, List.length_cons, List.length_nil]
              omega
            · rw [if_neg hge]
              omega
      · rw [if_neg hvis, if_neg hvis]

/-- Once the running total is strictly past the target the snapshot can never
fire again. -/
theorem fillLoop_saved_frozen (pick : List Nat → Option (Nat × Nat × Nat)) :
    ∀ fuel c ct target nVis acc saved, target < ct →
      (fillLoop pick fuel c ct target nVis acc saved).2 = saved := by
  intro fuel
  induction fuel with
  | zero => intro c ct target nVis acc saved h; rfl
  | succ fuel ih =>
      intro c ct target nVis acc saved h
      simp only [fillLoop]
      by_cases hvis : acc.length < nVis
      · rw [if_pos hvis]
        cases hp : pick c with
        | none => rfl
        | some it =>
            rw [if_neg (by omega)]
            exact ih _ (ct + 1) target nVis _ saved (by omega)
      · rw [if_neg hvis]

/-- Resumability: when a fill starting at or below the target records a
snapshot `s`, re-running the fill from `s` at the target (as the next
recompute will, after its no-op rewind) reproduces the identical window and
snapshot. -/
theorem fillLoop_resume (pick : List Nat → Option (Nat × Nat × Nat)) :
    ∀ fuel c ct target nVis s,
      ct ≤ target → (target - ct) + nVis ≤ fuel →
      (fillLoop pick fuel c ct target nVis [] none).2 = some s →
      fillLoop pick (target + nVis) s target target nVis [] none
        = fillLoop pick fuel c ct target nVis [] none := by
  intro fuel
  induction fuel with
  | zero =>
      intro c ct target nVis s hct hfuel hres
      simp only [fillLoop] at hres
      cases hres
  | succ fuel ih =>
      intro c ct target nVis s hct hfuel hres
      simp only [fillLoop] at hres
      by_cases hvis : ([] : List (Nat × Nat)).length < nVis
      · rw [if_pos hvis] at hres
        cases hp : pick c with
        | none => rw [hp] at hres; cases hres
        | some it =>
            rw [hp] at hres
            dsimp only at hres
            by_cases heq : ct = target
            · subst heq
              rw [if_pos (show ct ≥ ct from le_rfl),
                if_pos (show ct = ct from rfl)] at hres
              have hfr := fillLoop_saved_frozen pick fuel
                (c.set it.1 (c.getD it.1 0 + 1)) (ct + 1) ct nVis
                ([] ++ [(it.1, it.2.1)]) (some c) (by omega)
              rw [hfr] at hres
              cases hres
              have hn1 : nVis ≤ fuel + 1 := by
                simpa using hfuel
              have h1 : fillLoop pick (ct + nVis) c ct ct nVis [] none
                  = fillLoop pick nVis c ct ct nVis [] none := by
                have := fillLoop_fuel pick nVis ct c ct ct nVis [] none (by simp)
                rwa [show nVis + ct = ct + nVis by omega] at this
              have h2 : fillLoop pick (fuel + 1) c ct ct nVis [] none
                  = fillLoop pick nVis c ct ct nVis [] none := by
                have := fillLoop_fuel pick nVis (fuel + 1 - nVis) c ct ct nVis []
                  none (by simp)
                rwa [show nVis + (fuel + 1 - nVis) = fuel + 1 by omega] at this
              rw [h1, h2]
            · have hstep : fillLoop pick (fuel + 1) c ct target nVis [] none
                  = fillLoop pick fuel (c.set it.1 (c.getD it.1 0 + 1)) (ct + 1)
                      target nVis [] none := by
                simp only [fillLoop]
                rw [if_pos hvis, hp]
                dsimp only
                rw [if_neg (by omega), if_neg heq]
              rw [if_neg (by omega), if_neg heq] at hres
              rw [hstep]
              exact ih (c.set it.1 (c.getD it.1 0 + 1)) (ct + 1) target nVis s
                (by omega) (by omega) hres
      · rw [if_neg hvis] at hres
        cases hres

theorem sum_le_of_getD_le : ∀ (c d : List Nat), c.length = d.length →
    (∀ i, i < c.length → c.getD i 0 ≤ d.getD i 0) → c.sum ≤ d.sum := by
  intro c
  induction c with
  | nil => intro d _ _; simp
  | cons a as ih =>
      intro d hlen h
      cases d with
      | nil => simp at hlen
      | cons b bs =>
          simp only [List.sum_cons]
          have h0 := h 0 (by simp)
          simp only [List.getD_cons_zero] at h0
          have := ih bs (by simpa using hlen) (fun i hi => by
            have := h (i + 1) (by simpa using Nat.succ_lt_succ hi)
            simpa using this)
          omega

/-! ### The window/padding partition of a recompute (for the reconciliation
claim) -/

/-- Under the cursor invariant, one recompute partitions the total line count
exactly into window entries, lines before and lines after. -/
theorem recomputeCore_partition (L : RunnerLogs) (anchor : Anchor)
    (vp : Option Viewport) (ridxs cs : List Nat)
    (hlen : cs.length = ridxs.length)
    (hbound : ∀ i, i < ridxs.length →
      cs.getD i 0 ≤ (ridxs.map (logLen L)).getD i 0) :
    (recomputeCore L anchor vp ridxs cs).window.length
      + (recomputeCore L anchor vp ridxs cs).nBefore
      + (recomputeCore L anchor vp ridxs cs).nAfter
      = (ridxs.map (logLen L)).sum := by
  have hlenslen : (ridxs.map (logLen L)).length = ridxs.length := by simp
  cases anchor with
  | End =>
      unfold recomputeCore
      dsimp only
      generalize hrg : reconcileAndPrefetch (List.map (logLen L) ridxs).sum
          (match vp with
           | none => (List.map (logLen L) ridxs).sum
           | some v => pxCeil v.bounds_height)
          (match vp with
           | none => 0
           | some v => pxFloor v.offset_bottom.y) = r
      have hsum : r.1 + r.2.1 + r.2.2 = (List.map (logLen L) ridxs).sum := by
        rw [← hrg]
        exact reconcileAndPrefetch_sum _ _ _
      obtain ⟨hr1, hr2, hr3⟩ := rewindLoop_post
        (pickRewindEnd L ridxs (ridxs.map (logLen L))) ridxs.length
        (fun c it h => pickRewindEnd_some L ridxs _ c it h)
        (fun c h => pickRewindEnd_none L ridxs _ c h)
        cs.sum cs cs.sum r.2.1 rfl hlen (by omega)
      obtain ⟨f1, _⟩ := fillLoop_post
        (pickFillEnd L ridxs (ridxs.map (logLen L))) ridxs.length
        (ridxs.map (logLen L)) hlenslen
        (fun c it h => pickFillEnd_some L ridxs _ c it h)
        (fun c h => pickFillEnd_none L ridxs _ c h)
        r.2.1 r.1 (by omega)
        (r.2.1 + r.1)
        (rewindLoop (pickRewindEnd L ridxs (ridxs.map (logLen L))) cs.sum cs cs.sum r.2.1)
        (rewindLoop (pickRewindEnd L ridxs (ridxs.map (logLen L))) cs.sum cs cs.sum r.2.1).sum
        [] none
        hr2 rfl (fun i hi => le_trans (hr3 i) (hbound i hi))
        (Or.inl ⟨hr1, rfl⟩) (by simp only [List.length_nil]; omega)
      simp only [List.length_reverse, f1, List.length_nil]
      omega
  | Start =>
      unfold recomputeCore
      dsimp only
      generalize hrg : reconcileAndPrefetch (List.map (logLen L) ridxs).sum
          (match vp with
           | none => (List.map (logLen L) ridxs).sum
           | some v => pxCeil v.bounds_height)
          (match vp with
           | none => 0
           | some v => pxFloor v.offset_top.y) = r
      have hsum : r.1 + r.2.1 + r.2.2 = (List.map (logLen L) ridxs).sum := by
        rw [← hrg]
        exact reconcileAndPrefetch_sum _ _ _
      obtain ⟨hr1, hr2, hr3⟩ := rewindLoop_post
        (pickRewindStart L ridxs (ridxs.map (logLen L))) ridxs.length
        (fun c it h => pickRewindStart_some L ridxs _ c it h)
        (fun c h => pickRewindStart_none L ridxs _ c h)
        cs.sum cs cs.sum r.2.1 rfl hlen (by omega)
      obtain ⟨f1, _⟩ := fillLoop_post
        (pickFillStart L ridxs (ridxs.map (logLen L))) ridxs.length
        (ridxs.map (logLen L)) hlenslen
        (fun c it h => pickFillStart_some L ridxs _ c it h)
        (fun c h => pickFillStart_none L ridxs _ c h)
        r.2.1 r.1 (by omega)
        (r.2.1 + r.1)
        (rewindLoop (pickRewindStart L ridxs (ridxs.map (logLen L))) cs.sum cs cs.sum r.2.1)
        (rewindLoop (pickRewindStart L ridxs (ridxs.map (logLen L))) cs.sum cs cs.sum r.2.1).sum
        [] none
        hr2 rfl (fun i hi => le_trans (hr3 i) (hbound i hi))
        (Or.inl ⟨hr1, rfl⟩) (by simp only [List.length_nil]; omega)
      simp only [f1, List.length_nil]
      omega

/-- C2.  Reconciliation: after any recompute performed with the engine's
cursor invariant holding (cursors within bounds), the number of window
entries plus the culled line counts represented by `space_before` and
`space_after` (in line units, i.e. divided by the line height) equals the
total number of entries over the active set — whatever the stored viewport
metrics, including stale ones. -/
theorem recompute_reconciliation (st : ScrollState) (L : RunnerLogs)
    (hlen : st.cursors.length = st.runner_idxs.length)
    (hbound : ∀ i, i < st.runner_idxs.length →
      st.cursors.getD i 0 ≤ logLen L (st.runner_idxs.getD i 0))
    (henable : st.enable_updates = true) :
    ((st.update_logs L).logs.length : ℚ)
      + (st.update_logs L).space_before / lineHeight
      + (st.update_logs L).space_after / lineHeight
      = ((st.runner_idxs.map (logLen L)).sum : ℚ) := by
  have hbound' : ∀ i, i < st.runner_idxs.length →
      st.cursors.getD i 0 ≤ (st.runner_idxs.map (logLen L)).getD i 0 := by
    intro i hi
    rw [lens_getD L _ i hi]
    exact hbound i hi
  have hpart := recomputeCore_partition L st.anchor_y st.viewport st.runner_idxs
    st.cursors hlen hbound'
  have hlh : lineHeight ≠ 0 := by norm_num [lineHeight]
  unfold ScrollState.update_logs
  rw [henable, if_pos rfl]
  dsimp only
  rw [List.length_map]
  rw [mul_div_cancel_right₀ _ hlh, mul_div_cancel_right₀ _ hlh]
  exact_mod_cast hpart

theorem recompute_reconciliation_witness :
    ((ScrollState.update_logs
        ⟨0, 0, Anchor.End, [], some ⟨⟨0, 7⟩, ⟨0, 50⟩, 44⟩, [0, 1], [1, 0], true⟩
        [[3, 5, 9], [4]]).logs.length : ℚ)
      + (ScrollState.update_logs
          ⟨0, 0, Anchor.End, [], some ⟨⟨0, 7⟩, ⟨0, 50⟩, 44⟩, [0, 1], [1, 0], true⟩
          [[3, 5, 9], [4]]).space_before / lineHeight
      + (ScrollState.update_logs
          ⟨0, 0, Anchor.End, [], some ⟨⟨0, 7⟩, ⟨0, 50⟩, 44⟩, [0, 1], [1, 0], true⟩
          [[3, 5, 9], [4]]).space_after / lineHeight
      = (([0, 1].map (logLen [[3, 5, 9], [4]])).sum : ℚ) :=
  recompute_reconciliation _ _ rfl (by decide) rfl

/-! ### The cursor invariant -/

/-- The engine's cursor well-formedness invariant:
`0 ≤ Cursor[i] ≤ len(SourceLog[i])` for every active slot (the lower bound is
inherent to `Nat`), together with the cursors/active-set length agreement. -/
def CursorInv (st : ScrollState) (L : RunnerLogs) : Prop :=
  st.cursors.length = st.runner_idxs.length
  ∧ ∀ i, i < st.runner_idxs.length →
      st.cursors.getD i 0 ≤ logLen L (st.runner_idxs.getD i 0)

theorem flipCursors_length (L : RunnerLogs) (ridxs c : List Nat) :
    (flipCursors L ridxs c).length = c.length := by
  simp [flipCursors]

theorem flipCursors_getD (L : RunnerLogs) (ridxs c : List Nat) (i : Nat)
    (h : i < c.length) :
    (flipCursors L ridxs c).getD i 0
      = logLen L (ridxs.getD i 0) - c.getD i 0 := by
  unfold flipCursors
  rw [List.getD_eq_getElem _ _ (by simpa using h)]
  simp

/-- A recompute leaves the stored cursors within bounds: they are either
untouched or replaced by the boundary snapshot, which is within bounds. -/
theorem recomputeCore_cursors_inv (L : RunnerLogs) (anchor : Anchor)
    (vp : Option Viewport) (ridxs cs : List Nat)
    (hlen : cs.length = ridxs.length)
    (hbound : ∀ i, i < ridxs.length →
      cs.getD i 0 ≤ (ridxs.map (logLen L)).getD i 0) :
    (recomputeCore L anchor vp ridxs cs).cursors.length = ridxs.length
    ∧ ∀ i, i < ridxs.length →
        (recomputeCore L anchor vp ridxs cs).cursors.getD i 0
          ≤ (ridxs.map (logLen L)).getD i 0 := by
  have hlenslen : (ridxs.map (logLen L)).length = ridxs.length := by simp
  cases anchor with
  | End =>
      unfold recomputeCore
      dsimp only
      generalize hrg : reconcileAndPrefetch (List.map (logLen L) ridxs).sum
          (match vp with
           | none => (List.map (logLen L) ridxs).sum
           | some v => pxCeil v.bounds_height)
          (match vp with
           | none => 0
           | some v => pxFloor v.offset_bottom.y) = r
      have hsum : r.1 + r.2.1 + r.2.2 = (List.map (logLen L) ridxs).sum := by
        rw [← hrg]
        exact reconcileAndPrefetch_sum _ _ _
      obtain ⟨hr1, hr2, hr3⟩ := rewindLoop_post
        (pickRewindEnd L ridxs (ridxs.map (logLen L))) ridxs.length
        (fun c it h => pickRewindEnd_some L ridxs _ c it h)
        (fun c h => pickRewindEnd_none L ridxs _ c h)
        cs.sum cs cs.sum r.2.1 rfl hlen (by omega)
      obtain ⟨_, f2⟩ := fillLoop_post
        (pickFillEnd L ridxs (ridxs.map (logLen L))) ridxs.length
        (ridxs.map (logLen L)) hlenslen
        (fun c it h => pickFillEnd_some L ridxs _ c it h)
        (fun c h => pickFillEnd_none L ridxs _ c h)
        r.2.1 r.1 (by omega)
        (r.2.1 + r.1)
        (rewindLoop (pickRewindEnd L ridxs (ridxs.map (logLen L))) cs.sum cs cs.sum r.2.1)
        (rewindLoop (pickRewindEnd L ridxs (ridxs.map (logLen L))) cs.sum cs cs.sum r.2.1).sum
        [] none
        hr2 rfl (fun i hi => le_trans (hr3 i) (hbound i hi))
        (Or.inl ⟨hr1, rfl⟩) (by simp only [List.length_nil]; omega)
      rcases f2 with f2 | ⟨s, hs, hsl, hsb, _⟩
      · rw [f2]
        exact ⟨hlen, hbound⟩
      · rw [hs]
        exact ⟨hsl, hsb⟩
  | Start =>
      unfold recomputeCore
      dsimp only
      generalize hrg : reconcileAndPrefetch (List.map (logLen L) ridxs).sum
          (match vp with
           | none => (List.map (logLen L) ridxs).sum
           | some v => pxCeil v.bounds_height)
          (match vp with
           | none => 0
           | some v => pxFloor v.offset_top.y) = r
      have hsum : r.1 + r.2.1 + r.2.2 = (List.map (logLen L) ridxs).sum := by
        rw [← hrg]
        exact reconcileAndPrefetch_sum _ _ _
      obtain ⟨hr1, hr2, hr3⟩ := rewindLoop_post
        (pickRewindStart L ridxs (ridxs.map (logLen L))) ridxs.length
        (fun c it h => pickRewindStart_some L ridxs _ c it h)
        (fun c h => pickRewindStart_none L ridxs _ c h)
        cs.sum cs cs.sum r.2.1 rfl hlen (by omega)
      obtain ⟨_, f2⟩ := fillLoop_post
        (pickFillStart L ridxs (ridxs.map (logLen L))) ridxs.length
        (ridxs.map (logLen L)) hlenslen
        (fun c it h => pickFillStart_some L ridxs _ c it h)
        (fun c h => pickFillStart_none L ridxs _ c h)
        r.2.1 r.1 (by omega)
        (r.2.1 + r.1)
        (rewindLoop (pickRewindStart L ridxs (ridxs.map (logLen L))) cs.sum cs cs.sum r.2.1)
        (rewindLoop (pickRewindStart L ridxs (ridxs.map (logLen L))) cs.sum cs cs.sum r.2.1).sum
        [] none
        hr2 rfl (fun i hi => le_trans (hr3 i) (hbound i hi))
        (Or.inl ⟨hr1, rfl⟩) (by simp only [List.length_nil]; omega)
      rcases f2 with f2 | ⟨s, hs, hsl, hsb, _⟩
      · rw [f2]
        exact ⟨hlen, hbound⟩
      · rw [hs]
        exact ⟨hsl, hsb⟩

/-- C6.  The cursor invariant `0 ≤ cursor[i] ≤ len(log[i])` (with length
agreement) is preserved by a recompute, by every engine message (scroll
metrics with or without a flip included), is established by
`set_runner_idxs`, and survives monotone growth of the source logs between
operations. -/
theorem cursor_invariant (st : ScrollState) :
    (∀ st' L, CursorInv st' L → CursorInv (ScrollState.update_logs st' L) L)
    ∧ (∀ st' msg L, CursorInv st' L → CursorInv (ScrollState.update st' msg L).1 L)
    ∧ (∀ idxs L, CursorInv (st.set_runner_idxs idxs).1 L)
    ∧ (∀ st' L M, CursorInv st' L → (∀ j, logLen L j ≤ logLen M j)
        → CursorInv st' M) := by
  have h1 : ∀ st' L, CursorInv st' L → CursorInv (ScrollState.update_logs st' L) L := by
    intro st' L hinv
    unfold ScrollState.update_logs
    by_cases he : st'.enable_updates = true
    · rw [he, if_pos rfl]
      have hb' : ∀ i, i < st'.runner_idxs.length →
          st'.cursors.getD i 0 ≤ (st'.runner_idxs.map (logLen L)).getD i 0 := by
        intro i hi
        rw [lens_getD L _ i hi]
        exact hinv.2 i hi
      obtain ⟨c1, c2⟩ := recomputeCore_cursors_inv L st'.anchor_y st'.viewport
        st'.runner_idxs st'.cursors hinv.1 hb'
      refine ⟨c1, fun i hi => ?_⟩
      have := c2 i hi
      rwa [lens_getD L _ i hi] at this
    · rw [if_neg he]
      exact hinv
  refine ⟨h1, ?_, ?_, ?_⟩
  · intro st' msg L hinv
    cases msg with
    | UpdateLogs => exact h1 st' L hinv
    | SetEnableUpdates v => exact hinv
    | OnScroll ev =>
        unfold ScrollState.update
        dsimp only
        by_cases he : st'.enable_updates = true
        · rw [if_pos he]
          have hinv2 : CursorInv (ScrollState.update_logs
              { st' with viewport := some (storedViewport ev st'.anchor_y) } L) L :=
            h1 _ L hinv
          cases hA : (ScrollState.update_logs
              { st' with viewport := some (storedViewport ev st'.anchor_y) } L).anchor_y with
          | Start =>
              by_cases hth : ev.absolute_offset_reversed.y < 21 / 10 * lineHeight
              · rw [if_pos hth]
                refine ⟨?_, fun i hi => ?_⟩
                · rw [flipCursors_length]
                  exact hinv2.1
                · rw [flipCursors_getD _ _ _ i (by rw [hinv2.1]; exact hi)]
                  exact Nat.sub_le _ _
              · rw [if_neg hth]
                exact hinv2
          | End =>
              by_cases hth : ev.absolute_offset.y > 21 / 10 * lineHeight
              · rw [if_pos hth]
                refine ⟨?_, fun i hi => ?_⟩
                · rw [flipCursors_length]
                  exact hinv2.1
                · rw [flipCursors_getD _ _ _ i (by rw [hinv2.1]; exact hi)]
                  exact Nat.sub_le _ _
              · rw [if_neg hth]
                exact hinv2
        · rw [if_neg he]
          exact hinv
  · intro idxs L
    have hrep : ∀ n i, (List.replicate n (0 : Nat)).getD i 0 = 0 := by
      intro n i
      rw [List.getD_eq_getElem?_getD, List.getElem?_replicate]
      split <;> rfl
    refine ⟨by simp [ScrollState.set_runner_idxs], fun i hi => ?_⟩
    simp only [ScrollState.set_runner_idxs]
    rw [hrep]
    exact Nat.zero_le _
  · intro st' L M hinv hgrow
    exact ⟨hinv.1, fun i hi => le_trans (hinv.2 i hi) (hgrow _)⟩

/-- C9.  Termination with bounded work.  Under the cursor invariant the
rewind fuel `recomputeCore` passes (the initial cursor total) is at most
`totalLines`, and the fill fuel it passes (`skip target + nVisible`) is at
most `totalLines`; more fuel changes neither loop's result (each loop has
already stabilized: the rewind decrements its total every iteration, the
fill performs at most `target + nVisible` iterations), under either anchor's
pick and for any reconciled geometry. -/
theorem recompute_work_bounded (st : ScrollState) (L : RunnerLogs)
    (hlen : st.cursors.length = st.runner_idxs.length)
    (hbound : ∀ i, i < st.runner_idxs.length →
      st.cursors.getD i 0 ≤ logLen L (st.runner_idxs.getD i 0)) :
    st.cursors.sum ≤ (st.runner_idxs.map (logLen L)).sum
    ∧ (∀ nVis0 off0,
        (reconcileAndPrefetch (st.runner_idxs.map (logLen L)).sum nVis0 off0).2.1
          + (reconcileAndPrefetch (st.runner_idxs.map (logLen L)).sum nVis0 off0).1
          ≤ (st.runner_idxs.map (logLen L)).sum)
    ∧ (∀ target extra,
        rewindLoop (pickRewindEnd L st.runner_idxs (st.runner_idxs.map (logLen L)))
            (st.cursors.sum + extra) st.cursors st.cursors.sum target
          = rewindLoop (pickRewindEnd L st.runner_idxs (st.runner_idxs.map (logLen L)))
              st.cursors.sum st.cursors st.cursors.sum target)
    ∧ (∀ target extra,
        rewindLoop (pickRewindStart L st.runner_idxs (st.runner_idxs.map (logLen L)))
            (st.cursors.sum + extra) st.cursors st.cursors.sum target
          = rewindLoop (pickRewindStart L st.runner_idxs (st.runner_idxs.map (logLen L)))
              st.cursors.sum st.cursors st.cursors.sum target)
    ∧ (∀ target nVis extra c ct,
        fillLoop (pickFillEnd L st.runner_idxs (st.runner_idxs.map (logLen L)))
            ((target + nVis) + extra) c ct target nVis [] none
          = fillLoop (pickFillEnd L st.runner_idxs (st.runner_idxs.map (logLen L)))
              (target + nVis) c ct target nVis [] none)
    ∧ (∀ target nVis extra c ct,
        fillLoop (pickFillStart L st.runner_idxs (st.runner_idxs.map (logLen L)))
            ((target + nVis) + extra) c ct target nVis [] none
          = fillLoop (pickFillStart L st.runner_idxs (st.runner_idxs.map (logLen L)))
              (target + nVis) c ct target nVis [] none) := by
  refine ⟨?_, ?_, ?_, ?_, ?_, ?_⟩
  · refine sum_le_of_getD_le st.cursors (st.runner_idxs.map (logLen L))
      (by simp [hlen]) (fun i hi => ?_)
    rw [lens_getD L _ i (by omega)]
    exact hbound i (by omega)
  · intro nVis0 off0
    exact reconcileAndPrefetch_le _ _ _
  · intro target extra
    exact rewindLoop_fuel _ st.cursors.sum extra st.cursors st.cursors.sum target
      (by omega)
  · intro target extra
    exact rewindLoop_fuel _ st.cursors.sum extra st.cursors st.cursors.sum target
      (by omega)
  · intro target nVis extra c ct
    exact fillLoop_fuel _ (target + nVis) extra c ct target nVis [] none
      (by simp only [List.length_nil]; omega)
  · intro target nVis extra c ct
    exact fillLoop_fuel _ (target + nVis) extra c ct target nVis [] none
      (by simp only [List.length_nil]; omega)

theorem recompute_work_bounded_witness :
    List.sum [1] ≤ (([0].map (logLen [[7, 8]])).sum)
      ∧ ((∀ nVis0 off0,
          (reconcileAndPrefetch (([0] : List Nat).map (logLen [[7, 8]])).sum nVis0 off0).2.1
            + (reconcileAndPrefetch (([0] : List Nat).map (logLen [[7, 8]])).sum nVis0 off0).1
            ≤ (([0] : List Nat).map (logLen [[7, 8]])).sum)
        ∧ (∀ target extra,
          rewindLoop (pickRewindEnd [[7, 8]] [0] ([0].map (logLen [[7, 8]])))
              (List.sum [1] + extra) [1] (List.sum [1]) target
            = rewindLoop (pickRewindEnd [[7, 8]] [0] ([0].map (logLen [[7, 8]])))
                (List.sum [1]) [1] (List.sum [1]) target)
        ∧ (∀ target extra,
          rewindLoop (pickRewindStart [[7, 8]] [0] ([0].map (logLen [[7, 8]])))
              (List.sum [1] + extra) [1] (List.sum [1]) target
            = rewindLoop (pickRewindStart [[7, 8]] [0] ([0].map (logLen [[7, 8]])))
                (List.sum [1]) [1] (List.sum [1]) target)
        ∧ (∀ target nVis extra c ct,
          fillLoop (pickFillEnd [[7, 8]] [0] ([0].map (logLen [[7, 8]])))
              ((target + nVis) + extra) c ct target nVis [] none
            = fillLoop (pickFillEnd [[7, 8]] [0] ([0].map (logLen [[7, 8]])))
                (target + nVis) c ct target nVis [] none)
        ∧ (∀ target nVis extra c ct,
          fillLoop (pickFillStart [[7, 8]] [0] ([0].map (logLen [[7, 8]])))
              ((target + nVis) + extra) c ct target nVis [] none
            = fillLoop (pickFillStart [[7, 8]] [0] ([0].map (logLen [[7, 8]])))
                (target + nVis) c ct target nVis [] none)) :=
  have h := recompute_work_bounded ⟨0, 0, Anchor.End, [], none, [0], [1], true⟩
    [[7, 8]] rfl (by decide)
  ⟨h.1, h.2⟩

theorem cursor_invariant_witness :
    CursorInv (ScrollState.update_logs ⟨0, 0, Anchor.End, [], none, [0], [1], true⟩
      [[5, 6]]) [[5, 6]] :=
  (cursor_invariant ⟨0, 0, Anchor.End, [], none, [], [], true⟩).1
    ⟨0, 0, Anchor.End, [], none, [0], [1], true⟩ [[5, 6]] ⟨rfl, by decide⟩

/-! ### Idempotence of the recompute -/

/-- Rerunning a recompute on its own output cursors changes nothing: the
second run's rewind is a no-op (the snapshot sums exactly to the skip
target), and its fill replays the first fill from the snapshot onward. -/
theorem recomputeCore_idem (L : RunnerLogs) (anchor : Anchor)
    (vp : Option Viewport) (ridxs cs : List Nat)
    (hlen : cs.length = ridxs.length)
    (hbound : ∀ i, i < ridxs.length →
      cs.getD i 0 ≤ (ridxs.map (logLen L)).getD i 0) :
    recomputeCore L anchor vp ridxs (recomputeCore L anchor vp ridxs cs).cursors
      = recomputeCore L anchor vp ridxs cs := by
  have hlenslen : (ridxs.map (logLen L)).length = ridxs.length := by simp
  cases anchor with
  | End =>
      unfold recomputeCore
      dsimp only
      generalize hrg : reconcileAndPrefetch (List.map (logLen L) ridxs).sum
          (match vp with
           | none => (List.map (logLen L) ridxs).sum
           | some v => pxCeil v.bounds_height)
          (match vp with
           | none => 0
           | some v => pxFloor v.offset_bottom.y) = r
      have hsum : r.1 + r.2.1 + r.2.2 = (List.map (logLen L) ridxs).sum := by
        rw [← hrg]
        exact reconcileAndPrefetch_sum _ _ _
      obtain ⟨hr1, hr2, hr3⟩ := rewindLoop_post
        (pickRewindEnd L ridxs (ridxs.map (logLen L))) ridxs.length
        (fun c it h => pickRewindEnd_some L ridxs _ c it h)
        (fun c h => pickRewindEnd_none L ridxs _ c h)
        cs.sum cs cs.sum r.2.1 rfl hlen (by omega)
      obtain ⟨_, f2⟩ := fillLoop_post
        (pickFillEnd L ridxs (ridxs.map (logLen L))) ridxs.length
        (ridxs.map (logLen L)) hlenslen
        (fun c it h => pickFillEnd_some L ridxs _ c it h)
        (fun c h => pickFillEnd_none L ridxs _ c h)
        r.2.1 r.1 (by omega)
        (r.2.1 + r.1)
        (rewindLoop (pickRewindEnd L ridxs (ridxs.map (logLen L))) cs.sum cs cs.sum r.2.1)
        (rewindLoop (pickRewindEnd L ridxs (ridxs.map (logLen L))) cs.sum cs cs.sum r.2.1).sum
        [] none
        hr2 rfl (fun i hi => le_trans (hr3 i) (hbound i hi))
        (Or.inl ⟨hr1, rfl⟩) (by simp only [List.length_nil]; omega)
      cases hs : (fillLoop (pickFillEnd L ridxs (ridxs.map (logLen L)))
          (r.2.1 + r.1)
          (rewindLoop (pickRewindEnd L ridxs (ridxs.map (logLen L))) cs.sum cs cs.sum r.2.1)
          (rewindLoop (pickRewindEnd L ridxs (ridxs.map (logLen L))) cs.sum cs cs.sum r.2.1).sum
          r.2.1 r.1 [] none).2 with
      | none =>
          dsimp only [Option.getD]
          rw [hs]
      | some s =>
          rcases f2 with f2 | ⟨s', hs', hsl, hsb, hssum⟩
          · rw [hs] at f2
            cases f2
          · rw [hs] at hs'
            cases hs'
            dsimp only [Option.getD]
            rw [rewindLoop_noStep _ _ _ _ _ (by omega)]
            rw [hssum]
            rw [fillLoop_resume (pickFillEnd L ridxs (ridxs.map (logLen L)))
              (r.2.1 + r.1)
              (rewindLoop (pickRewindEnd L ridxs (ridxs.map (logLen L))) cs.sum cs cs.sum r.2.1)
              (rewindLoop (pickRewindEnd L ridxs (ridxs.map (logLen L))) cs.sum cs cs.sum r.2.1).sum
              r.2.1 r.1 s hr1 (by omega) hs]
            rw [hs]
  | Start =>
      unfold recomputeCore
      dsimp only
      generalize hrg : reconcileAndPrefetch (List.map (logLen L) ridxs).sum
          (match vp with
           | none => (List.map (logLen L) ridxs).sum
           | some v => pxCeil v.bounds_height)
          (match vp with
           | none => 0
           | some v => pxFloor v.offset_top.y) = r
      have hsum : r.1 + r.2.1 + r.2.2 = (List.map (logLen L) ridxs).sum := by
        rw [← hrg]
        exact reconcileAndPrefetch_sum _ _ _
      obtain ⟨hr1, hr2, hr3⟩ := rewindLoop_post
        (pickRewindStart L ridxs (ridxs.map (logLen L))) ridxs.length
        (fun c it h => pickRewindStart_some L ridxs _ c it h)
        (fun c h => pickRewindStart_none L ridxs _ c h)
        cs.sum cs cs.sum r.2.1 rfl hlen (by omega)
      obtain ⟨_, f2⟩ := fillLoop_post
        (pickFillStart L ridxs (ridxs.map (logLen L))) ridxs.length
        (ridxs.map (logLen L)) hlenslen
        (fun c it h => pickFillStart_some L ridxs _ c it h)
        (fun c h => pickFillStart_none L ridxs _ c h)
        r.2.1 r.1 (by omega)
        (r.2.1 + r.1)
        (rewindLoop (pickRewindStart L ridxs (ridxs.map (logLen L))) cs.sum cs cs.sum r.2.1)
        (rewindLoop (pickRewindStart L ridxs (ridxs.map (logLen L))) cs.sum cs cs.sum r.2.1).sum
        [] none
        hr2 rfl (fun i hi => le_trans (hr3 i) (hbound i hi))
        (Or.inl ⟨hr1, rfl⟩) (by simp only [List.length_nil]; omega)
      cases hs : (fillLoop (pickFillStart L ridxs (ridxs.map (logLen L)))
          (r.2.1 + r.1)
          (rewindLoop (pickRewindStart L ridxs (ridxs.map (logLen L))) cs.sum cs cs.sum r.2.1)
          (rewindLoop (pickRewindStart L ridxs (ridxs.map (logLen L))) cs.sum cs cs.sum r.2.1).sum
          r.2.1 r.1 [] none).2 with
      | none =>
          dsimp only [Option.getD]
          rw [hs]
      | some s =>
          rcases f2 with f2 | ⟨s', hs', hsl, hsb, hssum⟩
          · rw [hs] at f2
            cases f2
          · rw [hs] at hs'
            cases hs'
            dsimp only [Option.getD]
            rw [rewindLoop_noStep _ _ _ _ _ (by omega)]
            rw [hssum]
            rw [fillLoop_resume (pickFillStart L ridxs (ridxs.map (logLen L)))
              (r.2.1 + r.1)
              (rewindLoop (pickRewindStart L ridxs (ridxs.map (logLen L))) cs.sum cs cs.sum r.2.1)
              (rewindLoop (pickRewindStart L ridxs (ridxs.map (logLen L))) cs.sum cs cs.sum r.2.1).sum
              r.2.1 r.1 s hr1 (by omega) hs]
            rw [hs]

/-- C5.  Idempotence: calling the recompute twice with the same logs and the
same stored viewport and no intervening append yields an identical state on
the second call — the same window references, the same `space_before` and
`space_after`, and stored cursors equal to those after the first call. -/
theorem update_logs_idempotent (st : ScrollState) (L : RunnerLogs)
    (hlen : st.cursors.length = st.runner_idxs.length)
    (hbound : ∀ i, i < st.runner_idxs.length →
      st.cursors.getD i 0 ≤ logLen L (st.runner_idxs.getD i 0)) :
    ScrollState.update_logs (st.update_logs L) L = st.update_logs L := by
  obtain ⟨sb, sa, ay, lg, vp, ri, cu, en⟩ := st
  cases en with
  | false =>
      have h0 : ScrollState.update_logs ⟨sb, sa, ay, lg, vp, ri, cu, false⟩ L
          = ⟨sb, sa, ay, lg, vp, ri, cu, false⟩ := by
        unfold ScrollState.update_logs
        rw [if_neg (by simp)]
      rw [h0, h0]
  | true =>
      simp only at hlen hbound
      have hb' : ∀ i, i < ri.length →
          cu.getD i 0 ≤ (ri.map (logLen L)).getD i 0 := by
        intro i hi
        rw [lens_getD L _ i hi]
        exact hbound i hi
      have hcore := recomputeCore_idem L ay vp ri cu hlen hb'
      have h1 : ScrollState.update_logs ⟨sb, sa, ay, lg, vp, ri, cu, true⟩ L
          = ⟨((recomputeCore L ay vp ri cu).nBefore : ℚ) * lineHeight,
             ((recomputeCore L ay vp ri cu).nAfter : ℚ) * lineHeight,
             ay,
             (recomputeCore L ay vp ri cu).window.map (fun ip => ⟨ri.getD ip.1 0, ip.2⟩),
             vp, ri, (recomputeCore L ay vp ri cu).cursors, true⟩ := by
        unfold ScrollState.update_logs
        rw [if_pos rfl]
      rw [h1]
      unfold ScrollState.update_logs
      rw [if_pos rfl]
      dsimp only
      rw [hcore]

theorem update_logs_idempotent_witness :
    ScrollState.update_logs
        (ScrollState.update_logs ⟨0, 0, Anchor.End, [], none, [0], [1], true⟩ [[3, 4]])
        [[3, 4]]
      = ScrollState.update_logs ⟨0, 0, Anchor.End, [], none, [0], [1], true⟩ [[3, 4]] :=
  update_logs_idempotent _ _ rfl (by decide)

/-! ### The ingestion line splitter -/

theorem breakAtNewline_eq_none : ∀ s : List Char,
    breakAtNewline s = none → '\n' ∉ s := by
  intro s
  induction s with
  | nil => intro _; simp
  | cons ch cs ih =>
      intro h
      by_cases hc : ch = '\n'
      · subst hc
        simp [breakAtNewline] at h
      · simp only [breakAtNewline, if_neg hc] at h
        cases hb : breakAtNewline cs with
        | some pq => rw [hb] at h; cases h
        | none =>
            simp only [List.mem_cons]
            intro hmem
            rcases hmem with hmem | hmem
            · exact hc hmem.symm
            · exact ih hb hmem

theorem breakAtNewline_some_eq : ∀ (s : List Char) (pq : List Char × List Char),
    breakAtNewline s = some pq → s = pq.1 ++ '\n' :: pq.2 ∧ '\n' ∉ pq.1 := by
  intro s
  induction s with
  | nil => intro pq h; cases h
  | cons ch cs ih =>
      intro pq h
      by_cases hc : ch = '\n'
      · subst hc
        simp only [breakAtNewline, if_pos rfl] at h
        cases h
        simp
      · simp only [breakAtNewline, if_neg hc] at h
        cases hb : breakAtNewline cs with
        | none => rw [hb] at h; cases h
        | some pq' =>
            rw [hb] at h
            cases h
            obtain ⟨h1, h2⟩ := ih pq' hb
            constructor
            · simp [h1]
            · simp only [List.mem_cons]
              intro h3
              rcases h3 with h3 | h3
              · exact hc h3.symm
              · exact h2 h3

/-- Main induction for the ingestion loop, on the chunk length. -/
theorem ingest_main : ∀ (n : Nat) (s buf : List Char), s.length ≤ n →
    '\n' ∉ buf →
    (ingest buf s).2.length = s.count '\n'
    ∧ '\n' ∉ (ingest buf s).1
    ∧ (∀ e ∈ (ingest buf s).2, '\n' ∉ e)
    ∧ (ingest buf s).2.foldr (fun e acc => e ++ '\n' :: acc) (ingest buf s).1
        = buf ++ s := by
  intro n
  induction n with
  | zero =>
      intro s buf hn hbuf
      have hs : s = [] := List.length_eq_zero.1 (by omega)
      subst hs
      rw [ingest]
      simp [hbuf]
  | succ n ih =>
      intro s buf hn hbuf
      rw [ingest]
      by_cases hs : s = []
      · rw [if_pos hs]
        subst hs
        simp [hbuf]
      · rw [if_neg hs]
        cases hb : breakAtNewline s with
        | none =>
            have hmem : '\n' ∉ s := breakAtNewline_eq_none s hb
            refine ⟨?_, ?_, ?_, ?_⟩
            · simp [List.count_eq_zero_of_not_mem hmem]
            · simp only [List.mem_append]
              intro h
              rcases h with h | h
              · exact hbuf h
              · exact hmem h
            · intro e he
              cases he
            · simp
        | some pq =>
            obtain ⟨hseq, hpre⟩ := breakAtNewline_some_eq s pq hb
            have hlt : pq.2.length < s.length := breakAtNewline_shorter s pq hb
            obtain ⟨i1, i2, i3, i4⟩ := ih pq.2 [] (by omega) (by simp)
            refine ⟨?_, i2, ?_, ?_⟩
            · simp only [List.length_cons, i1, hseq, List.count_append,
                List.count_cons]
              rw [List.count_eq_zero_of_not_mem hpre]
              simp
            · intro e he
              rcases List.mem_cons.1 he with rfl | he'
              · simp only [List.mem_append]
                intro h
                rcases h with h | h
                · exact hbuf h
                · exact hpre h
              · exact i3 e he'
            · simp only [List.foldr_cons, i4, List.nil_append, hseq]
              simp

/-- C10.  One chunk of stdout (or stderr — the two arms are identical) is
split at its newlines: exactly one log entry is appended per `'\n'` in the
chunk; the entries are newline-free and, joined back with `'\n'` and
followed by the final buffer, reconstitute the old buffer plus the chunk
(so the first entry is the previously buffered partial line followed by the
chunk text up to its first newline, and the text after the last newline
stays in the buffer); a chunk without a newline appends nothing and goes
entirely into the buffer. -/
theorem ingest_spec (buf s : List Char) (hbuf : '\n' ∉ buf) :
    (ingest buf s).2.length = s.count '\n'
    ∧ '\n' ∉ (ingest buf s).1
    ∧ (∀ e ∈ (ingest buf s).2, '\n' ∉ e)
    ∧ (ingest buf s).2.foldr (fun e acc => e ++ '\n' :: acc) (ingest buf s).1
        = buf ++ s
    ∧ ('\n' ∉ s → ingest buf s = (buf ++ s, [])) := by
  obtain ⟨h1, h2, h3, h4⟩ := ingest_main s.length s buf le_rfl hbuf
  refine ⟨h1, h2, h3, h4, fun hmem => ?_⟩
  rw [ingest]
  by_cases hs : s = []
  · rw [if_pos hs]
    subst hs
    simp
  · rw [if_neg hs]
    cases hb : breakAtNewline s with
    | none => rfl
    | some pq =>
        exfalso
        obtain ⟨hseq, _⟩ := breakAtNewline_some_eq s pq hb
        exact hmem (by rw [hseq]; simp)

theorem ingest_spec_witness :
    ('\n' ∉ ['a', 'b'])
    ∧ ((ingest ['a', 'b'] ['c', '\n', 'd', '\n', 'e']).2.length
        = ['c', '\n', 'd', '\n', 'e'].count '\n'
      ∧ '\n' ∉ (ingest ['a', 'b'] ['c', '\n', 'd', '\n', 'e']).1
      ∧ (∀ e ∈ (ingest ['a', 'b'] ['c', '\n', 'd', '\n', 'e']).2, '\n' ∉ e)
      ∧ (ingest ['a', 'b'] ['c', '\n', 'd', '\n', 'e']).2.foldr
          (fun e acc => e ++ '\n' :: acc)
          (ingest ['a', 'b'] ['c', '\n', 'd', '\n', 'e']).1
          = ['a', 'b'] ++ ['c', '\n', 'd', '\n', 'e']
      ∧ ('\n' ∉ ['c', '\n', 'd', '\n', 'e'] →
          ingest ['a', 'b'] ['c', '\n', 'd', '\n', 'e']
            = (['a', 'b'] ++ ['c', '\n', 'd', '\n', 'e'], []))) :=
  ⟨by decide, ingest_spec ['a', 'b'] ['c', '\n', 'd', '\n', 'e'] (by decide)⟩

/-! ### C1: the full-window recompute and the global chronological merge -/

/-- The "target number of visible lines" of a recompute: the rounded-up
viewport height, or every line when no viewport has been stored
(`recomputeCore`'s `nVis0`). -/
def targetVisibleLines (vp : Option Viewport) (total : Nat) : Nat :=
  match vp with
  | none => total
  | some v => pxCeil v.bounds_height

/-- No two distinct active sources share a timestamp. -/
def crossTieFree (L : RunnerLogs) (ridxs : List Nat) : Prop :=
  ∀ i, i < ridxs.length → ∀ j, j < ridxs.length → i ≠ j →
    ∀ p, p < logLen L (ridxs.getD i 0) → ∀ q, q < logLen L (ridxs.getD j 0) →
      logTime L (ridxs.getD i 0) p ≠ logTime L (ridxs.getD j 0) q

/-- The references a `Start`-anchor fill from cursors `c` has not yet
consumed: positions from `c[i]` on, slot-major. -/
def remStart (L : RunnerLogs) (ridxs c : List Nat) : List (Nat × Nat) :=
  (List.range ridxs.length).flatMap (fun i =>
    (List.range' (c.getD i 0) (logLen L (ridxs.getD i 0) - c.getD i 0)).map
      (fun p => (i, p)))

/-- The references an `End`-anchor fill from cursors `c` has not yet
consumed: positions below `len[i] - c[i]`, slot-major. -/
def remEnd (L : RunnerLogs) (ridxs c : List Nat) : List (Nat × Nat) :=
  (List.range ridxs.length).flatMap (fun i =>
    (List.range (logLen L (ridxs.getD i 0) - c.getD i 0)).map (fun p => (i, p)))

theorem remStart_mem (L : RunnerLogs) (ridxs c : List Nat) (j q : Nat) :
    (j, q) ∈ remStart L ridxs c ↔
      j < ridxs.length ∧ c.getD j 0 ≤ q ∧
        q < c.getD j 0 + (logLen L (ridxs.getD j 0) - c.getD j 0) := by
  unfold remStart
  simp only [List.mem_flatMap, List.mem_range, List.mem_map, List.mem_range'_1,
    Prod.mk.injEq]
  constructor
  · rintro ⟨i, hi, p, ⟨hp1, hp2⟩, hij, hpq⟩
    subst hij; subst hpq
    exact ⟨hi, hp1, hp2⟩
  · rintro ⟨hj, h1, h2⟩
    exact ⟨j, hj, q, ⟨h1, h2⟩, rfl, rfl⟩

theorem remEnd_mem (L : RunnerLogs) (ridxs c : List Nat) (j q : Nat) :
    (j, q) ∈ remEnd L ridxs c ↔
      j < ridxs.length ∧ q < logLen L (ridxs.getD j 0) - c.getD j 0 := by
  unfold remEnd
  simp only [List.mem_flatMap, List.mem_range, List.mem_map, Prod.mk.injEq]
  constructor
  · rintro ⟨i, hi, p, hp, hij, hpq⟩
    subst hij; subst hpq
    exact ⟨hi, hp⟩
  · rintro ⟨hj, h1⟩
    exact ⟨j, hj, q, h1, rfl, rfl⟩

theorem flatMap_congr_mem {α β : Type} (l : List α) (f g : α → List β)
    (h : ∀ x ∈ l, f x = g x) : l.flatMap f = l.flatMap g := by
  induction l with
  | nil => rfl
  | cons a l ih =>
      simp only [List.flatMap_cons]
      rw [h a (List.mem_cons_self a l),
        ih (fun x hx => h x (List.mem_cons_of_mem a hx))]

/-- Removing one reference from one slot's sublist of a slot-major
enumeration is a permutation step. -/
theorem flatMap_cons_perm {β : Type} (x : β) :
    ∀ (l : List Nat) (f g : Nat → List β) (i : Nat), l.Nodup → i ∈ l →
      (∀ j ∈ l, j ≠ i → f j = g j) → (f i).Perm (x :: g i) →
      (l.flatMap f).Perm (x :: l.flatMap g) := by
  intro l
  induction l with
  | nil => intro f g i _ hi; cases hi
  | cons a l ih =>
      intro f g i hnd hi hoff hstep
      simp only [List.flatMap_cons]
      rcases List.mem_cons.1 hi with rfl | hi'
      · have hrest : ∀ j ∈ l, f j = g j := by
          intro j hj
          refine hoff j (List.mem_cons_of_mem _ hj) ?_
          rintro rfl
          exact (List.nodup_cons.1 hnd).1 hj
        rw [flatMap_congr_mem l f g hrest]
        exact hstep.append_right (l.flatMap g)
      · have hai : a ≠ i := by
          rintro rfl
          exact (List.nodup_cons.1 hnd).1 hi'
        rw [hoff a (List.mem_cons_self a l) hai]
        have hperm := ih f g i (List.nodup_cons.1 hnd).2 hi'
          (fun j hj => hoff j (List.mem_cons_of_mem a hj)) hstep
        exact (hperm.append_left (g a)).trans List.perm_middle

theorem remStart_nil (L : RunnerLogs) (ridxs c : List Nat)
    (h : ∀ i, i < ridxs.length → c.getD i 0 = logLen L (ridxs.getD i 0)) :
    remStart L ridxs c = [] := by
  rw [List.eq_nil_iff_forall_not_mem]
  intro x hx
  obtain ⟨j, q⟩ := x
  rw [remStart_mem] at hx
  have := h j hx.1
  omega

theorem remEnd_nil (L : RunnerLogs) (ridxs c : List Nat)
    (h : ∀ i, i < ridxs.length → c.getD i 0 = logLen L (ridxs.getD i 0)) :
    remEnd L ridxs c = [] := by
  rw [List.eq_nil_iff_forall_not_mem]
  intro x hx
  obtain ⟨j, q⟩ := x
  rw [remEnd_mem] at hx
  have := h j hx.1
  omega

theorem remStart_zero (L : RunnerLogs) (ridxs c : List Nat)
    (h : ∀ i, i < ridxs.length → c.getD i 0 = 0) :
    remStart L ridxs c = allRefs L ridxs := by
  unfold remStart allRefs
  apply flatMap_congr_mem
  intro i hi
  rw [List.mem_range] at hi
  rw [h i hi, Nat.sub_zero, List.range_eq_range']

theorem remEnd_zero (L : RunnerLogs) (ridxs c : List Nat)
    (h : ∀ i, i < ridxs.length → c.getD i 0 = 0) :
    remEnd L ridxs c = allRefs L ridxs := by
  unfold remEnd allRefs
  apply flatMap_congr_mem
  intro i hi
  rw [List.mem_range] at hi
  rw [h i hi, Nat.sub_zero]

/-- Advancing slot `i`'s cursor consumes exactly the reference `(i, c[i])`,
the head of slot `i`'s remaining run. -/
theorem remStart_step (L : RunnerLogs) (ridxs c : List Nat) (i : Nat)
    (hi : i < ridxs.length) (hclen : c.length = ridxs.length)
    (hlt : c.getD i 0 < logLen L (ridxs.getD i 0)) :
    (remStart L ridxs c).Perm
      ((i, c.getD i 0) :: remStart L ridxs (c.set i (c.getD i 0 + 1))) := by
  unfold remStart
  apply flatMap_cons_perm _ _ _ _ i (List.nodup_range _) (List.mem_range.2 hi)
  · intro j hj hji
    rw [getD_set_ne _ _ _ _ hji]
  · rw [getD_set_self _ _ _ (by omega)]
    rw [show logLen L (ridxs.getD i 0) - c.getD i 0
        = (logLen L (ridxs.getD i 0) - (c.getD i 0 + 1)) + 1 from by omega]
    rw [List.range'_succ]
    simp

/-- Advancing slot `i`'s cursor under `End` consumes exactly the reference
`(i, len[i] - c[i] - 1)`, the last of slot `i`'s remaining run. -/
theorem remEnd_step (L : RunnerLogs) (ridxs c : List Nat) (i : Nat)
    (hi : i < ridxs.length) (hclen : c.length = ridxs.length)
    (hlt : c.getD i 0 < logLen L (ridxs.getD i 0)) :
    (remEnd L ridxs c).Perm
      ((i, logLen L (ridxs.getD i 0) - c.getD i 0 - 1)
        :: remEnd L ridxs (c.set i (c.getD i 0 + 1))) := by
  unfold remEnd
  apply flatMap_cons_perm _ _ _ _ i (List.nodup_range _) (List.mem_range.2 hi)
  · intro j hj hji
    rw [getD_set_ne _ _ _ _ hji]
  · rw [getD_set_self _ _ _ (by omega)]
    rw [show logLen L (ridxs.getD i 0) - c.getD i 0
        = (logLen L (ridxs.getD i 0) - (c.getD i 0 + 1)) + 1 from by omega]
    rw [List.range_succ, List.map_append]
    rw [show logLen L (ridxs.getD i 0) - (c.getD i 0 + 1)
        = logLen L (ridxs.getD i 0) - c.getD i 0 - 1 from by omega]
    exact List.perm_append_singleton _ _

theorem length_flatMap_sum {α β : Type} :
    ∀ (l : List α) (f : α → List β),
      (l.flatMap f).length = (l.map (fun a => (f a).length)).sum
  | [], _ => rfl
  | a :: l, f => by
      simp only [List.flatMap_cons, List.length_append, List.map_cons,
        List.sum_cons, length_flatMap_sum l f]

theorem map_range_getD {β : Type} (l : List Nat) (g : Nat → β) :
    (List.range l.length).map (fun i => g (l.getD i 0)) = l.map g := by
  refine List.ext_getElem (by simp) (fun i h1 h2 => ?_)
  simp only [List.getElem_map, List.getElem_range]
  rw [List.getD_eq_getElem _ _ (by simpa using h2)]

theorem allRefs_length (L : RunnerLogs) (ridxs : List Nat) :
    (allRefs L ridxs).length = (ridxs.map (logLen L)).sum := by
  unfold allRefs
  rw [length_flatMap_sum]
  simp only [List.length_map, List.length_range]
  rw [map_range_getD ridxs (logLen L)]

theorem getD_zero_of_sum_zero : ∀ (c : List Nat), c.sum = 0 →
    ∀ i, c.getD i 0 = 0
  | [], _, _ => rfl
  | a :: c, h, 0 => by
      simp only [List.sum_cons] at h
      simp only [List.getD_cons_zero]
      omega
  | a :: c, h, i + 1 => by
      simp only [List.sum_cons] at h
      simp only [List.getD_cons_succ]
      exact getD_zero_of_sum_zero c (by omega) i

/-! ### The reference order is a total order -/

instance refLE_isTotal (L : RunnerLogs) (ridxs : List Nat) :
    IsTotal (Nat × Nat) (refLE L ridxs) := by
  constructor
  intro a b
  unfold refLE
  omega

instance refLE_isTrans (L : RunnerLogs) (ridxs : List Nat) :
    IsTrans (Nat × Nat) (refLE L ridxs) := by
  constructor
  intro a b c hab hbc
  unfold refLE at hab hbc ⊢
  omega

instance refLE_isAntisymm (L : RunnerLogs) (ridxs : List Nat) :
    IsAntisymm (Nat × Nat) (refLE L ridxs) := by
  constructor
  intro a b hab hba
  unfold refLE at hab hba
  obtain ⟨a1, a2⟩ := a
  obtain ⟨b1, b2⟩ := b
  dsimp only at hab hba
  simp only [Prod.mk.injEq]
  omega

/-- Within one time-sorted source, the timestamp is monotone in the
position. -/
theorem logTime_mono (L : RunnerLogs) (j p q : Nat)
    (hs : List.Sorted (fun a b : Nat => a ≤ b) (logOf L j))
    (hpq : p ≤ q) (hq : q < logLen L j) :
    logTime L j p ≤ logTime L j q := by
  rcases Nat.lt_or_ge p q with hlt | hge
  · have hq' : q < (logOf L j).length := hq
    have hp' : p < (logOf L j).length := lt_trans hlt hq'
    have := (List.pairwise_iff_getElem.1 hs) p q hp' hq' hlt
    unfold logTime
    rw [List.getD_eq_getElem _ _ hp', List.getD_eq_getElem _ _ hq']
    exact this
  · rw [le_antisymm hpq hge]

/-- Prepending the unique minimum to a sorted remainder is the insertion
sort of the whole. -/
theorem insertionSort_cons_min {α : Type} (r : α → α → Prop) [DecidableRel r]
    [IsTrans α r] [IsAntisymm α r] [IsTotal α r] (m : α) (rem rem' : List α)
    (hperm : rem.Perm (m :: rem')) (hmin : ∀ y ∈ rem', r m y) :
    rem.insertionSort r = m :: rem'.insertionSort r := by
  refine List.eq_of_perm_of_sorted ?_ (List.sorted_insertionSort r rem) ?_
  · exact (List.perm_insertionSort r rem).trans
      (hperm.trans ((List.perm_insertionSort r rem').symm.cons m))
  · rw [List.sorted_cons]
    exact ⟨fun b hb => hmin b ((List.perm_insertionSort r rem').subset hb),
      List.sorted_insertionSort r rem'⟩

/-- Appending the unique maximum to a sorted remainder is the insertion
sort of the whole. -/
theorem insertionSort_append_max {α : Type} (r : α → α → Prop) [DecidableRel r]
    [IsTrans α r] [IsAntisymm α r] [IsTotal α r] (m : α) (rem rem' : List α)
    (hperm : rem.Perm (m :: rem')) (hmax : ∀ y ∈ rem', r y m) :
    rem.insertionSort r = rem'.insertionSort r ++ [m] := by
  refine List.eq_of_perm_of_sorted ?_ (List.sorted_insertionSort r rem) ?_
  · exact (List.perm_insertionSort r rem).trans
      (hperm.trans (((List.perm_insertionSort r rem').symm.cons m).trans
        (List.perm_append_singleton m (rem'.insertionSort r)).symm))
  · have : List.Pairwise r (rem'.insertionSort r ++ [m]) := by
      refine List.pairwise_append.2
        ⟨List.sorted_insertionSort r rem', List.pairwise_singleton _ _, ?_⟩
      intro a ha b hb
      rw [List.mem_singleton] at hb
      subst hb
      exact hmax a ((List.perm_insertionSort r rem').subset ha)
    exact this

/-! ### Reconciliation when the target covers every line -/

theorem reconcileClamp_full (total nVis0 off0 : Nat) (h : total ≤ nVis0) :
    reconcileClamp total nVis0 off0 = (total, 0) := by
  rw [Prod.ext_iff]
  constructor
  · unfold reconcileClamp; dsimp only; split_ifs <;> dsimp only <;> omega
  · unfold reconcileClamp; dsimp only; split_ifs <;> dsimp only <;> omega

/-- When the requested visible-line count covers every line, reconciliation
asks for the whole history: all lines visible, nothing culled on either
side. -/
theorem reconcileAndPrefetch_full (total nVis0 off0 : Nat)
    (h : total ≤ nVis0) :
    reconcileAndPrefetch total nVis0 off0 = (total, 0, 0) := by
  have hpm : prefetchMargin total 0 = (total, 0) := by
    unfold prefetchMargin
    rw [if_neg (by omega), Nat.add_zero]
  unfold reconcileAndPrefetch
  dsimp only
  rw [reconcileClamp_full total nVis0 off0 h]
  dsimp only
  rw [hpm]
  dsimp only
  rw [show total - 0 - total = 0 from by omega, hpm]

/-! ### The fill picks select the extremal remaining reference -/

/-- A successful `Start`-anchor fill pick takes the frontier entry of some
slot and is a minimum of every remaining reference in the order
`(timestamp, slot, position)`. -/
theorem pickFillStart_min (L : RunnerLogs) (ridxs c : List Nat)
    (hble : ∀ i, i < ridxs.length → c.getD i 0 ≤ logLen L (ridxs.getD i 0))
    (hsorted : ∀ i, i < ridxs.length →
      List.Sorted (fun a b : Nat => a ≤ b) (logOf L (ridxs.getD i 0)))
    (it : Nat × Nat × Nat)
    (h : pickFillStart L ridxs (ridxs.map (logLen L)) c = some it) :
    it.1 < ridxs.length ∧ it.2.1 = c.getD it.1 0 ∧
      c.getD it.1 0 < logLen L (ridxs.getD it.1 0) ∧
      ∀ j q, (j, q) ∈ remStart L ridxs c → (j, q) ≠ (it.1, it.2.1) →
        refLE L ridxs (it.1, it.2.1) (j, q) := by
  unfold pickFillStart at h
  cases hm : pickMinDesc ridxs.length
      (candFillStart L ridxs (ridxs.map (logLen L)) c) with
  | none => rw [hm] at h; cases h
  | some ju =>
      rw [hm] at h
      cases h
      obtain ⟨hj1, hj2, hj3⟩ := pickMinDesc_spec _ _ _ hm
      rw [candFillStart] at hj2
      by_cases hceq : c.getD ju.1 0 = (ridxs.map (logLen L)).getD ju.1 0
      · rw [if_pos hceq] at hj2; cases hj2
      · rw [if_neg hceq] at hj2
        have ht : ju.2 = logTime L (ridxs.getD ju.1 0) (c.getD ju.1 0) :=
          (Option.some.inj hj2).symm
        have hlt : c.getD ju.1 0 < logLen L (ridxs.getD ju.1 0) := by
          have := hble ju.1 hj1
          rw [lens_getD L ridxs ju.1 hj1] at hceq
          omega
        refine ⟨hj1, rfl, hlt, ?_⟩
        intro j q hmem hne
        dsimp only
        rw [remStart_mem] at hmem
        obtain ⟨hjn, hq1, hq2⟩ := hmem
        have hqlt : q < logLen L (ridxs.getD j 0) := by
          have := hble j hjn; omega
        by_cases hji : j = ju.1
        · subst hji
          have hqgt : c.getD ju.1 0 < q := by
            rcases Nat.lt_or_ge (c.getD ju.1 0) q with h1 | h1
            · exact h1
            · exfalso
              apply hne
              rw [Prod.mk.injEq]
              exact ⟨rfl, by dsimp only; omega⟩
          have hmono := logTime_mono L (ridxs.getD ju.1 0) (c.getD ju.1 0) q
            (hsorted ju.1 hjn) (by omega) hqlt
          unfold refLE
          dsimp only
          omega
        · have hcj : c.getD j 0 < logLen L (ridxs.getD j 0) := by omega
          have hcand : candFillStart L ridxs (ridxs.map (logLen L)) c j
              = some (logTime L (ridxs.getD j 0) (c.getD j 0)) := by
            rw [candFillStart,
              if_neg (by rw [lens_getD L ridxs j hjn]; omega)]
          have hmin := hj3 j hjn hji _ hcand
          rw [ht] at hmin
          have hmono := logTime_mono L (ridxs.getD j 0) (c.getD j 0) q
            (hsorted j hjn) hq1 hqlt
          unfold refLE
          dsimp only
          omega

/-- A successful `End`-anchor fill pick takes the frontier entry of some
slot and — when no cross-source timestamp ties exist — is a maximum of every
remaining reference in the order `(timestamp, slot, position)`. -/
theorem pickFillEnd_max (L : RunnerLogs) (ridxs c : List Nat)
    (hble : ∀ i, i < ridxs.length → c.getD i 0 ≤ logLen L (ridxs.getD i 0))
    (hsorted : ∀ i, i < ridxs.length →
      List.Sorted (fun a b : Nat => a ≤ b) (logOf L (ridxs.getD i 0)))
    (hties : crossTieFree L ridxs)
    (it : Nat × Nat × Nat)
    (h : pickFillEnd L ridxs (ridxs.map (logLen L)) c = some it) :
    it.1 < ridxs.length ∧
      it.2.1 = logLen L (ridxs.getD it.1 0) - c.getD it.1 0 - 1 ∧
      c.getD it.1 0 < logLen L (ridxs.getD it.1 0) ∧
      ∀ j q, (j, q) ∈ remEnd L ridxs c → (j, q) ≠ (it.1, it.2.1) →
        refLE L ridxs (j, q) (it.1, it.2.1) := by
  unfold pickFillEnd at h
  cases hm : pickMaxAsc ridxs.length
      (candFillEnd L ridxs (ridxs.map (logLen L)) c) with
  | none => rw [hm] at h; cases h
  | some ju =>
      rw [hm] at h
      cases h
      obtain ⟨hj1, hj2, hj3⟩ := pickMaxAsc_spec _ _ _ hm
      rw [candFillEnd] at hj2
      by_cases hceq : c.getD ju.1 0 = (ridxs.map (logLen L)).getD ju.1 0
      · rw [if_pos hceq] at hj2; cases hj2
      · rw [if_neg hceq] at hj2
        have ht : ju.2 = logTime L (ridxs.getD ju.1 0)
            ((ridxs.map (logLen L)).getD ju.1 0 - c.getD ju.1 0 - 1) :=
          (Option.some.inj hj2).symm
        rw [lens_getD L ridxs ju.1 hj1] at hceq ht
        have hlt : c.getD ju.1 0 < logLen L (ridxs.getD ju.1 0) := by
          have := hble ju.1 hj1
          omega
        refine ⟨hj1, by dsimp only; rw [lens_getD L ridxs ju.1 hj1], hlt, ?_⟩
        intro j q hmem hne
        dsimp only at hne ⊢
        rw [lens_getD L ridxs ju.1 hj1] at hne ⊢
        rw [remEnd_mem] at hmem
        obtain ⟨hjn, hq1⟩ := hmem
        have hqlt : q < logLen L (ridxs.getD j 0) := by omega
        by_cases hji : j = ju.1
        · subst hji
          have hqlt2 : q < logLen L (ridxs.getD ju.1 0) - c.getD ju.1 0 - 1 := by
            rcases Nat.lt_or_ge q
              (logLen L (ridxs.getD ju.1 0) - c.getD ju.1 0 - 1) with h1 | h1
            · exact h1
            · exfalso
              apply hne
              rw [Prod.mk.injEq]
              exact ⟨rfl, by omega⟩
          have hmono := logTime_mono L (ridxs.getD ju.1 0) q
            (logLen L (ridxs.getD ju.1 0) - c.getD ju.1 0 - 1)
            (hsorted ju.1 hjn) (by omega) (by omega)
          unfold refLE
          dsimp only
          omega
        · have hcj : c.getD j 0 < logLen L (ridxs.getD j 0) := by
            have := hble j hjn; omega
          have hcand : candFillEnd L ridxs (ridxs.map (logLen L)) c j
              = some (logTime L (ridxs.getD j 0)
                  (logLen L (ridxs.getD j 0) - c.getD j 0 - 1)) := by
            rw [candFillEnd,
              if_neg (by rw [lens_getD L ridxs j hjn]; omega)]
            rw [lens_getD L ridxs j hjn]
          have hmax := hj3 j hjn hji _ hcand
          rw [ht] at hmax
          have hnoties := hties j hjn ju.1 hj1 hji
            (logLen L (ridxs.getD j 0) - c.getD j 0 - 1) (by omega)
            (logLen L (ridxs.getD ju.1 0) - c.getD ju.1 0 - 1) (by omega)
          have hmono := logTime_mono L (ridxs.getD j 0) q
            (logLen L (ridxs.getD j 0) - c.getD j 0 - 1)
            (hsorted j hjn) (by omega) (by omega)
          unfold refLE
          dsimp only
          omega

/-! ### A fill with zero skip target enumerates the remaining references in
sorted order -/

/-- A `Start`-anchor fill with skip target `0` and a visibility budget that
exactly covers the remaining references appends them in the order
`(timestamp, slot, position)`: the insertion sort of `remStart`. -/
theorem fillStart_exhaust (L : RunnerLogs) (ridxs : List Nat)
    (hsorted : ∀ i, i < ridxs.length →
      List.Sorted (fun a b : Nat => a ≤ b) (logOf L (ridxs.getD i 0))) :
    ∀ (fuel : Nat) (c : List Nat) (ct nVis : Nat) (acc : List (Nat × Nat))
      (saved : Option (List Nat)),
      c.length = ridxs.length →
      (∀ i, i < ridxs.length → c.getD i 0 ≤ logLen L (ridxs.getD i 0)) →
      nVis = acc.length + (remStart L ridxs c).length →
      (remStart L ridxs c).length ≤ fuel →
      (fillLoop (pickFillStart L ridxs (ridxs.map (logLen L)))
          fuel c ct 0 nVis acc saved).1
        = acc ++ (remStart L ridxs c).insertionSort (refLE L ridxs) := by
  intro fuel
  induction fuel with
  | zero =>
      intro c ct nVis acc saved hclen hble hnv hfuel
      have hnil : remStart L ridxs c = [] :=
        List.length_eq_zero.1 (by omega)
      rw [hnil]
      simp [fillLoop, List.insertionSort]
  | succ fuel ih =>
      intro c ct nVis acc saved hclen hble hnv hfuel
      by_cases hrem : remStart L ridxs c = []
      · rw [hrem] at hnv ⊢
        simp only [List.length_nil, Nat.add_zero] at hnv
        simp only [fillLoop]
        rw [if_neg (by omega)]
        simp [List.insertionSort]
      · have hpos : 0 < (remStart L ridxs c).length := List.length_pos.2 hrem
        simp only [fillLoop]
        rw [if_pos (by omega)]
        cases hp : pickFillStart L ridxs (ridxs.map (logLen L)) c with
        | none =>
            exfalso
            apply hrem
            refine remStart_nil L ridxs c (fun i hi => ?_)
            have := pickFillStart_none L ridxs (ridxs.map (logLen L)) c hp i hi
            rwa [lens_getD L ridxs i hi] at this
        | some it =>
            dsimp only
            obtain ⟨hi1, hi2, hi3, hi4⟩ :=
              pickFillStart_min L ridxs c hble hsorted it hp
            rw [hi2] at hi4 ⊢
            rw [if_pos (Nat.zero_le ct)]
            have hstep := remStart_step L ridxs c it.1 hi1 hclen hi3
            have hlen' : (c.set it.1 (c.getD it.1 0 + 1)).length
                = ridxs.length := by simp [hclen]
            have hble' : ∀ i, i < ridxs.length →
                (c.set it.1 (c.getD it.1 0 + 1)).getD i 0
                  ≤ logLen L (ridxs.getD i 0) := by
              intro i hi
              by_cases hii : i = it.1
              · subst hii
                rw [getD_set_self _ _ _ (by omega)]
                omega
              · rw [getD_set_ne _ _ _ _ hii]
                exact hble i hi
            have hlenrem : (remStart L ridxs c).length
                = (remStart L ridxs (c.set it.1 (c.getD it.1 0 + 1))).length
                    + 1 := by
              have := hstep.length_eq
              simp only [List.length_cons] at this
              omega
            rw [ih (c.set it.1 (c.getD it.1 0 + 1)) (ct + 1) nVis
              (acc ++ [(it.1, c.getD it.1 0)]) (if ct = 0 then some c else saved)
              hlen' hble'
              (by simp only [List.length_append, List.length_cons,
                    List.length_nil]
                  omega)
              (by omega)]
            have hmin : ∀ y ∈ remStart L ridxs (c.set it.1 (c.getD it.1 0 + 1)),
                refLE L ridxs (it.1, c.getD it.1 0) y := by
              intro y hy
              obtain ⟨j, q⟩ := y
              rw [remStart_mem] at hy
              obtain ⟨hjn, hq1, hq2⟩ := hy
              by_cases hji : j = it.1
              · subst hji
                rw [getD_set_self _ _ _ (by omega)] at hq1 hq2
                refine hi4 it.1 q ?_ ?_
                · rw [remStart_mem]
                  have := hble it.1 hjn
                  exact ⟨hjn, by omega, by omega⟩
                · intro hh
                  rw [Prod.mk.injEq] at hh
                  omega
              · rw [getD_set_ne _ _ _ _ hji] at hq1 hq2
                refine hi4 j q ?_ ?_
                · rw [remStart_mem]
                  exact ⟨hjn, hq1, hq2⟩
                · intro hh
                  rw [Prod.mk.injEq] at hh
                  exact hji hh.1
            rw [insertionSort_cons_min (refLE L ridxs) (it.1, c.getD it.1 0)
              _ _ hstep hmin]
            simp

/-- An `End`-anchor fill with skip target `0` and a visibility budget that
exactly covers the remaining references appends them newest-first: the
reversed insertion sort of `remEnd`.  Needs timestamp ties to be confined to
single sources — the ascending scan with strict `>` otherwise emits
cross-source ties in descending slot order. -/
theorem fillEnd_exhaust (L : RunnerLogs) (ridxs : List Nat)
    (hsorted : ∀ i, i < ridxs.length →
      List.Sorted (fun a b : Nat => a ≤ b) (logOf L (ridxs.getD i 0)))
    (hties : crossTieFree L ridxs) :
    ∀ (fuel : Nat) (c : List Nat) (ct nVis : Nat) (acc : List (Nat × Nat))
      (saved : Option (List Nat)),
      c.length = ridxs.length →
      (∀ i, i < ridxs.length → c.getD i 0 ≤ logLen L (ridxs.getD i 0)) →
      nVis = acc.length + (remEnd L ridxs c).length →
      (remEnd L ridxs c).length ≤ fuel →
      (fillLoop (pickFillEnd L ridxs (ridxs.map (logLen L)))
          fuel c ct 0 nVis acc saved).1
        = acc ++ ((remEnd L ridxs c).insertionSort (refLE L ridxs)).reverse := by
  intro fuel
  induction fuel with
  | zero =>
      intro c ct nVis acc saved hclen hble hnv hfuel
      have hnil : remEnd L ridxs c = [] :=
        List.length_eq_zero.1 (by omega)
      rw [hnil]
      simp [fillLoop, List.insertionSort]
  | succ fuel ih =>
      intro c ct nVis acc saved hclen hble hnv hfuel
      by_cases hrem : remEnd L ridxs c = []
      · rw [hrem] at hnv ⊢
        simp only [List.length_nil, Nat.add_zero] at hnv
        simp only [fillLoop]
        rw [if_neg (by omega)]
        simp [List.insertionSort]
      · have hpos : 0 < (remEnd L ridxs c).length := List.length_pos.2 hrem
        simp only [fillLoop]
        rw [if_pos (by omega)]
        cases hp : pickFillEnd L ridxs (ridxs.map (logLen L)) c with
        | none =>
            exfalso
            apply hrem
            refine remEnd_nil L ridxs c (fun i hi => ?_)
            have := pickFillEnd_none L ridxs (ridxs.map (logLen L)) c hp i hi
            rwa [lens_getD L ridxs i hi] at this
        | some it =>
            dsimp only
            obtain ⟨hi1, hi2, hi3, hi4⟩ :=
              pickFillEnd_max L ridxs c hble hsorted hties it hp
            rw [hi2] at hi4 ⊢
            rw [if_pos (Nat.zero_le ct)]
            have hstep := remEnd_step L ridxs c it.1 hi1 hclen hi3
            have hlen' : (c.set it.1 (c.getD it.1 0 + 1)).length
                = ridxs.length := by simp [hclen]
            have hble' : ∀ i, i < ridxs.length →
                (c.set it.1 (c.getD it.1 0 + 1)).getD i 0
                  ≤ logLen L (ridxs.getD i 0) := by
              intro i hi
              by_cases hii : i = it.1
              · subst hii
                rw [getD_set_self _ _ _ (by omega)]
                omega
              · rw [getD_set_ne _ _ _ _ hii]
                exact hble i hi
            have hlenrem : (remEnd L ridxs c).length
                = (remEnd L ridxs (c.set it.1 (c.getD it.1 0 + 1))).length
                    + 1 := by
              have := hstep.length_eq
              simp only [List.length_cons] at this
              omega
            rw [ih (c.set it.1 (c.getD it.1 0 + 1)) (ct + 1) nVis
              (acc ++ [(it.1, logLen L (ridxs.getD it.1 0) - c.getD it.1 0 - 1)])
              (if ct = 0 then some c else saved)
              hlen' hble'
              (by simp only [List.length_append, List.length_cons,
                    List.length_nil]
                  omega)
              (by omega)]
            have hmax : ∀ y ∈ remEnd L ridxs (c.set it.1 (c.getD it.1 0 + 1)),
                refLE L ridxs y
                  (it.1, logLen L (ridxs.getD it.1 0) - c.getD it.1 0 - 1) := by
              intro y hy
              obtain ⟨j, q⟩ := y
              rw [remEnd_mem] at hy
              obtain ⟨hjn, hq1⟩ := hy
              by_cases hji : j = it.1
              · subst hji
                rw [getD_set_self _ _ _ (by omega)] at hq1
                refine hi4 it.1 q ?_ ?_
                · rw [remEnd_mem]
                  exact ⟨hjn, by omega⟩
                · intro hh
                  rw [Prod.mk.injEq] at hh
                  omega
              · rw [getD_set_ne _ _ _ _ hji] at hq1
                refine hi4 j q ?_ ?_
                · rw [remEnd_mem]
                  exact ⟨hjn, hq1⟩
                · intro hh
                  rw [Prod.mk.injEq] at hh
                  exact hji hh.1
            rw [insertionSort_append_max (refLE L ridxs)
              (it.1, logLen L (ridxs.getD it.1 0) - c.getD it.1 0 - 1)
              _ _ hstep hmax]
            simp

/-! ### The full recompute pipeline at total visibility -/

/-- With skip target `0` the rewind drives every cursor to zero and the
`Start` fill then enumerates all references in chronological order. -/
theorem fullStartPipeline (L : RunnerLogs) (ridxs cs : List Nat)
    (hclen : cs.length = ridxs.length)
    (hsorted : ∀ i, i < ridxs.length →
      List.Sorted (fun a b : Nat => a ≤ b) (logOf L (ridxs.getD i 0))) :
    (fillLoop (pickFillStart L ridxs (ridxs.map (logLen L)))
        (0 + (ridxs.map (logLen L)).sum)
        (rewindLoop (pickRewindStart L ridxs (ridxs.map (logLen L)))
          cs.sum cs cs.sum 0)
        (rewindLoop (pickRewindStart L ridxs (ridxs.map (logLen L)))
          cs.sum cs cs.sum 0).sum
        0 ((ridxs.map (logLen L)).sum) [] none).1
      = sortedRefs L ridxs := by
  obtain ⟨hr1, hr2, hr3⟩ := rewindLoop_post
    (pickRewindStart L ridxs (ridxs.map (logLen L))) ridxs.length
    (fun c it h => pickRewindStart_some L ridxs _ c it h)
    (fun c h => pickRewindStart_none L ridxs _ c h)
    cs.sum cs cs.sum 0 rfl hclen (by omega)
  set c1 := rewindLoop (pickRewindStart L ridxs (ridxs.map (logLen L)))
    cs.sum cs cs.sum 0 with hc1
  have hz : ∀ i, c1.getD i 0 = 0 := getD_zero_of_sum_zero c1 (by omega)
  have hble1 : ∀ i, i < ridxs.length →
      c1.getD i 0 ≤ logLen L (ridxs.getD i 0) := by
    intro i hi
    rw [hz i]
    exact Nat.zero_le _
  have hrem : remStart L ridxs c1 = allRefs L ridxs :=
    remStart_zero L ridxs c1 (fun i _ => hz i)
  have hlenrem : (remStart L ridxs c1).length = (ridxs.map (logLen L)).sum := by
    rw [hrem, allRefs_length]
  rw [fillStart_exhaust L ridxs hsorted (0 + (ridxs.map (logLen L)).sum)
    c1 c1.sum ((ridxs.map (logLen L)).sum) [] none hr2 hble1
    (by simp only [List.length_nil]; omega) (by omega)]
  rw [hrem]
  simp [sortedRefs]

/-- With skip target `0` the rewind drives every cursor to zero and the
`End` fill then enumerates all references newest-first; the reversal restores
chronological order (cross-source tie-freedom required). -/
theorem fullEndPipeline (L : RunnerLogs) (ridxs cs : List Nat)
    (hclen : cs.length = ridxs.length)
    (hsorted : ∀ i, i < ridxs.length →
      List.Sorted (fun a b : Nat => a ≤ b) (logOf L (ridxs.getD i 0)))
    (hties : crossTieFree L ridxs) :
    (fillLoop (pickFillEnd L ridxs (ridxs.map (logLen L)))
        (0 + (ridxs.map (logLen L)).sum)
        (rewindLoop (pickRewindEnd L ridxs (ridxs.map (logLen L)))
          cs.sum cs cs.sum 0)
        (rewindLoop (pickRewindEnd L ridxs (ridxs.map (logLen L)))
          cs.sum cs cs.sum 0).sum
        0 ((ridxs.map (logLen L)).sum) [] none).1.reverse
      = sortedRefs L ridxs := by
  obtain ⟨hr1, hr2, hr3⟩ := rewindLoop_post
    (pickRewindEnd L ridxs (ridxs.map (logLen L))) ridxs.length
    (fun c it h => pickRewindEnd_some L ridxs _ c it h)
    (fun c h => pickRewindEnd_none L ridxs _ c h)
    cs.sum cs cs.sum 0 rfl hclen (by omega)
  set c1 := rewindLoop (pickRewindEnd L ridxs (ridxs.map (logLen L)))
    cs.sum cs cs.sum 0 with hc1
  have hz : ∀ i, c1.getD i 0 = 0 := getD_zero_of_sum_zero c1 (by omega)
  have hble1 : ∀ i, i < ridxs.length →
      c1.getD i 0 ≤ logLen L (ridxs.getD i 0) := by
    intro i hi
    rw [hz i]
    exact Nat.zero_le _
  have hrem : remEnd L ridxs c1 = allRefs L ridxs :=
    remEnd_zero L ridxs c1 (fun i _ => hz i)
  have hlenrem : (remEnd L ridxs c1).length = (ridxs.map (logLen L)).sum := by
    rw [hrem, allRefs_length]
  rw [fillEnd_exhaust L ridxs hsorted hties (0 + (ridxs.map (logLen L)).sum)
    c1 c1.sum ((ridxs.map (logLen L)).sum) [] none hr2 hble1
    (by simp only [List.length_nil]; omega) (by omega)]
  rw [hrem]
  simp [sortedRefs]

/-- A recompute whose requested visible-line count covers every entry
produces the full chronological merge, for a `Start` anchor always and for an
`End` anchor whenever no two distinct sources share a timestamp. -/
theorem recomputeCore_full_window (L : RunnerLogs) (anchor : Anchor)
    (vp : Option Viewport) (ridxs cs : List Nat)
    (hclen : cs.length = ridxs.length)
    (hsorted : ∀ i, i < ridxs.length →
      List.Sorted (fun a b : Nat => a ≤ b) (logOf L (ridxs.getD i 0)))
    (htarget : (ridxs.map (logLen L)).sum ≤
      targetVisibleLines vp ((ridxs.map (logLen L)).sum))
    (hanchor : anchor = Anchor.Start ∨ crossTieFree L ridxs) :
    (recomputeCore L anchor vp ridxs cs).window = sortedRefs L ridxs := by
  cases anchor with
  | Start =>
      cases vp with
      | none =>
          unfold targetVisibleLines at htarget
          dsimp only at htarget
          unfold recomputeCore
          dsimp only
          rw [reconcileAndPrefetch_full _ _ _ htarget]
          dsimp only
          exact fullStartPipeline L ridxs cs hclen hsorted
      | some v =>
          unfold targetVisibleLines at htarget
          dsimp only at htarget
          unfold recomputeCore
          dsimp only
          rw [reconcileAndPrefetch_full _ _ _ htarget]
          dsimp only
          exact fullStartPipeline L ridxs cs hclen hsorted
  | End =>
      rcases hanchor with h | hties
      · exact Anchor.noConfusion h
      cases vp with
      | none =>
          unfold targetVisibleLines at htarget
          dsimp only at htarget
          unfold recomputeCore
          dsimp only
          rw [reconcileAndPrefetch_full _ _ _ htarget]
          dsimp only
          exact fullEndPipeline L ridxs cs hclen hsorted hties
      | some v =>
          unfold targetVisibleLines at htarget
          dsimp only at htarget
          unfold recomputeCore
          dsimp only
          rw [reconcileAndPrefetch_full _ _ _ htarget]
          dsimp only
          exact fullEndPipeline L ridxs cs hclen hsorted hties

/-- C1.  Global order, amended: for any initial cursor placement within
bounds and time-sorted per-source logs, when the target visible-line count
covers the whole history a recompute yields exactly the global chronological
merge sorted ascending by timestamp with ties broken by ascending source
slot (and, within one source, by position) — under a `Start` anchor
unconditionally, and under an `End` anchor provided no two distinct sources
share a timestamp.  The original claim's unconditional `End` case is false:
the `End` fill scan keeps the earlier slot only on a strict `>`, so after the
final reversal cross-source ties come out in descending slot order (see the
counterexample). -/
theorem global_order (st : ScrollState) (L : RunnerLogs)
    (hclen : st.cursors.length = st.runner_idxs.length)
    (hble : ∀ i, i < st.runner_idxs.length →
      st.cursors.getD i 0 ≤ logLen L (st.runner_idxs.getD i 0))
    (hen : st.enable_updates = true)
    (hsorted : ∀ i, i < st.runner_idxs.length →
      List.Sorted (fun a b : Nat => a ≤ b) (logOf L (st.runner_idxs.getD i 0)))
    (htarget : (st.runner_idxs.map (logLen L)).sum ≤
      targetVisibleLines st.viewport ((st.runner_idxs.map (logLen L)).sum))
    (hanchor : st.anchor_y = Anchor.Start ∨ crossTieFree L st.runner_idxs) :
    (st.update_logs L).logs = specWindow L st.runner_idxs := by
  unfold ScrollState.update_logs
  rw [if_pos hen]
  dsimp only
  rw [recomputeCore_full_window L st.anchor_y st.viewport st.runner_idxs
    st.cursors hclen hsorted htarget hanchor]
  rfl

/-- C1 witness: a `Start`-anchor state over two sources with interleaved
timestamps and a half-consumed cursor placement; the recompute returns the
full two-way merge. -/
theorem global_order_witness :
    (ScrollState.update_logs
        { space_before := 0, space_after := 0, anchor_y := Anchor.Start,
          logs := [], viewport := none, runner_idxs := [0, 1],
          cursors := [1, 1], enable_updates := true }
        [[1, 3], [2]]).logs
      = specWindow [[1, 3], [2]] [0, 1] :=
  global_order
    { space_before := 0, space_after := 0, anchor_y := Anchor.Start,
      logs := [], viewport := none, runner_idxs := [0, 1],
      cursors := [1, 1], enable_updates := true }
    [[1, 3], [2]]
    (by decide) (by decide) rfl (by decide) (by decide) (Or.inl rfl)

/-- C1 counterexample to the original claim: two sources whose single
entries carry the same timestamp, `End` anchor, all cursors at zero, no
stored viewport (so the target covers everything).  The recompute emits the
tied entries in descending source order `[(1,0), (0,0)]`, not the claimed
ascending order `[(0,0), (1,0)]` of the chronological merge. -/
theorem global_order_counterexample :
    (ScrollState.update_logs
        { space_before := 0, space_after := 0, anchor_y := Anchor.End,
          logs := [], viewport := none, runner_idxs := [0, 1],
          cursors := [0, 0], enable_updates := true }
        [[5], [5]]).logs
      = [⟨1, 0⟩, ⟨0, 0⟩]
    ∧ specWindow [[5], [5]] [0, 1] = [⟨0, 0⟩, ⟨1, 0⟩]
    ∧ (ScrollState.update_logs
        { space_before := 0, space_after := 0, anchor_y := Anchor.End,
          logs := [], viewport := none, runner_idxs := [0, 1],
          cursors := [0, 0], enable_updates := true }
        [[5], [5]]).logs
      ≠ specWindow [[5], [5]] [0, 1] := by
  refine ⟨?_, ?_, ?_⟩ <;> decide

end Battlestation
